import Mathlib

/-!
# Histogram equalization (`img_hist_eq.c`, `img_hist_eq_gpu.c`)

A shallow embedding of the host pipeline `histogram_eq` with its helper
`get_min_cdf`, and of the dispatch done by the accelerator program's `main`.

Conventions of the embedding.

* A pixel buffer (`unsigned char *`) is a `List Nat`; a read `buf[k]` outside
  the buffer makes the enclosing loop return `none`.
* `unsigned int` counters are `Nat` reduced modulo `2 ^ 32` after every
  update.
* `width`, `height` and `cpp` are `int` in the source; every image the decoder
  delivers has non-negative dimensions, they are `Nat` here, and the theorems
  assume `width * height * cpp ≤ INT_MAX`, the range in which the source's
  `int` arithmetic (`px_idx`, `width * height`) is defined.
* A `float` is an IEEE 754 binary32 number, held as the rational it denotes: every
  conversion to `float` and every `float` operation of the remap expression is the
  exact result rounded by `binary32` (to nearest, ties to even, 24 significant bits),
  each operation being evaluated in `float` as with SSE arithmetic. No value of the
  expression reaches the overflow threshold `2 ^ 128`: the operands are counters
  below `2 ^ 32`. `round` is C's rounding to nearest with ties away from zero. A
  division by zero yields no number; the byte stored from it is left open as the
  parameter `undef_byte` of the functions below.
* The kernels of the accelerator program are in a source text that the program loads
  at run time; they are modelled from the specification, and `gpu_main` is the
  dispatch of `main` in `img_hist_eq_gpu.c` over them.
-/

namespace HistEq

/-- The macro `BINS` of `img_hist_eq.c` (`HISTOGRAM_BINS` in the accelerator program). -/
def BINS : Nat := 256

/-- Number of values of a 32-bit `unsigned int`. -/
def UINT_RANGE : Nat := 2 ^ 32

/-- Largest value of a 32-bit `int`. -/
def INT_MAX : Nat := 2 ^ 31 - 1

/-- The struct `histogram`: three tables of `unsigned int` counters. -/
structure histogram where
  R : List Nat
  G : List Nat
  B : List Nat
deriving DecidableEq

/-- The three `calloc(BINS, sizeof(unsigned int))` tables at the start of `histogram_eq`. -/
def histogram_init : histogram :=
  ⟨List.replicate BINS 0, List.replicate BINS 0, List.replicate BINS 0⟩

/-- The function `get_min_cdf`: start from `color_cdf[0]`, then for `i = 1 .. BINS-1`
replace the running value by `color_cdf[i]` when that is smaller and non-zero. -/
def get_min_cdf (color_cdf : List Nat) : Nat :=
  (List.range' 1 (BINS - 1)).foldl
    (fun min_cdf i =>
      if color_cdf.getD i 0 < min_cdf ∧ color_cdf.getD i 0 ≠ 0 then color_cdf.getD i 0
      else min_cdf)
    (color_cdf.getD 0 0)

/-- The statement `h[v]++` on a table of `unsigned int`; `v` is a byte, below `BINS`. -/
def hist_incr (h : List Nat) (v : Nat) : List Nat :=
  h.set v ((h.getD v 0 + 1) % UINT_RANGE)

/-- Body of the accumulation loop of `histogram_eq` at one pixel:
`H.R[image[px_idx]]++; H.G[image[px_idx + 1]]++; H.B[image[px_idx + 2]]++`. -/
def hist_pixel (image : List Nat) (H : histogram) (px_idx : Nat) : Option histogram :=
  match image[px_idx]?, image[px_idx + 1]?, image[px_idx + 2]? with
  | some r, some g, some b => some ⟨hist_incr H.R r, hist_incr H.G g, hist_incr H.B b⟩
  | _, _, _ => none

/-- The accumulation loop of `histogram_eq` ("Calculate image histogram"): rows `i`,
columns `j`, `px_idx = (i * width + j) * cpp`. -/
def hist_loop (image : List Nat) (width height cpp : Nat) (H : histogram) : Option histogram :=
  (List.range height).foldlM
    (fun H i => (List.range width).foldlM
      (fun H j => hist_pixel image H ((i * width + j) * cpp)) H) H

/-- The statement `h[i] += h[i - 1]` on a table of `unsigned int`. -/
def cdf_add (h : List Nat) (i : Nat) : List Nat :=
  h.set i ((h.getD i 0 + h.getD (i - 1) 0) % UINT_RANGE)

/-- The cumulative loop on one table: `for (i = 1; i < BINS; i++) h[i] += h[i - 1]`. -/
def cdf_table (h : List Nat) : List Nat :=
  (List.range' 1 (BINS - 1)).foldl cdf_add h

/-- The cumulative loop of `histogram_eq` ("Calculate cumulative distribution"), which
updates the three tables in each iteration. -/
def cdf_loop (H : histogram) : histogram :=
  (List.range' 1 (BINS - 1)).foldl
    (fun H i => ⟨cdf_add H.R i, cdf_add H.G i, cdf_add H.B i⟩) H

/-- C's `round`: to the nearest integer, ties away from zero. -/
def c_round (x : ℚ) : ℤ :=
  if 0 ≤ x then ⌊x + 1 / 2⌋ else ⌈x - 1 / 2⌉

/-- The divisor `width * height - min_cdf` of the remap expression: an `int` minus an
`unsigned int`, computed in `unsigned int`. -/
def remap_den (width height min_cdf : Nat) : Nat :=
  (width * height + UINT_RANGE - min_cdf % UINT_RANGE) % UINT_RANGE

/-- The power of two `2 ^ k` for an integer exponent. -/
def pow2 (k : ℤ) : ℚ :=
  if 0 ≤ k then ((2 ^ k.toNat : ℕ) : ℚ) else 1 / ((2 ^ (-k).toNat : ℕ) : ℚ)

/-- Binary logarithm of a natural number by halving, at most `fuel` times. -/
def log2_fuel : Nat → Nat → Nat
  | 0, _ => 0
  | fuel + 1, n => if n < 2 then 0 else log2_fuel fuel (n / 2) + 1

/-- Binary logarithm of a positive natural number: the `e` with `2 ^ e ≤ n < 2 ^ (e + 1)`. -/
def nat_log2 (n : Nat) : Nat := log2_fuel n n

/-- Binary exponent of a non-zero rational `x`: the `e` with `2 ^ e ≤ |x| < 2 ^ (e + 1)`. -/
def ilog2 (x : ℚ) : ℤ :=
  if pow2 ((nat_log2 x.num.natAbs : ℤ) - (nat_log2 x.den : ℤ)) * (x.den : ℚ)
      ≤ (x.num.natAbs : ℚ)
  then (nat_log2 x.num.natAbs : ℤ) - (nat_log2 x.den : ℤ)
  else (nat_log2 x.num.natAbs : ℤ) - (nat_log2 x.den : ℤ) - 1

/-- Rounding to the nearest integer, ties to the even one. -/
def rne (y : ℚ) : ℤ :=
  if y - ⌊y⌋ < 1 / 2 then ⌊y⌋
  else if 1 / 2 < y - ⌊y⌋ then ⌊y⌋ + 1
  else if ⌊y⌋ % 2 = 0 then ⌊y⌋ else ⌊y⌋ + 1

/-- Exponent of the unit in the last place of the binary32 numbers around `x`: 23 below
the exponent of `x`, and `-149` for the subnormal numbers. -/
def ulp_exp (x : ℚ) : ℤ := max (ilog2 x) (-126) - 23

/-- Rounding of a rational to IEEE 754 binary32 (`float`): the nearest multiple of the
unit in the last place, ties to the even one. Values of magnitude `2 ^ 128` and beyond,
which binary32 turns into an infinity, are outside this definition. -/
def binary32 (x : ℚ) : ℚ :=
  if x = 0 then 0 else (rne (x / pow2 (ulp_exp x)) : ℚ) * pow2 (ulp_exp x)

/-- The `float` expression `((float)cdf_old - min_cdf) / (width * height - min_cdf) * img_levels`
of the remap loop, with `img_levels = BINS - 1`: `cdf_old` is converted to `float`, so are
`min_cdf`, the `unsigned int` divisor and `img_levels`, and the subtraction, the division
and the multiplication are each rounded to `float`. -/
def remap_expr (cdf_old min_cdf width height : Nat) : ℚ :=
  binary32 (binary32 (binary32 (binary32 (cdf_old : ℚ) - binary32 (min_cdf : ℚ))
      / binary32 (remap_den width height min_cdf : ℚ))
    * binary32 ((BINS - 1 : ℕ) : ℚ))

/-- The value `((float)cdf[old] - min_cdf) / (width * height - min_cdf) * img_levels`
that the remap loop hands to `round`, a `float`. -/
def remap_value (cdf : List Nat) (min_cdf width height old : Nat) : ℚ :=
  remap_expr (cdf.getD old 0) min_cdf width height

/-- The byte stored by `image_eq[k] = round(...)`. With a zero divisor the C expression
is `0/0` or `±x/0`, whose conversion to `unsigned char` the language leaves open: the
byte is then the parameter `undef_byte`. Otherwise it is the rounded value, which is
stored as it is when it lies in 0..255 and is taken modulo 256 here when it does not
(a conversion the language leaves open as well). -/
def remap_byte (undef_byte : Nat) (cdf : List Nat) (min_cdf width height old : Nat) : Nat :=
  if remap_den width height min_cdf = 0 then undef_byte
  else (c_round (remap_value cdf min_cdf width height old) % 256).toNat

/-- A store `buf[k] = v` into a buffer of `buf.length` bytes. -/
def store (buf : List Nat) (k v : Nat) : Option (List Nat) :=
  if k < buf.length then some (buf.set k v) else none

/-- Body of the remap loop of `histogram_eq` at one pixel: the three colour bytes are
recomputed from the cumulative tables, and the alpha byte is copied when `cpp == 4`. -/
def remap_pixel (undef_byte : Nat) (image : List Nat) (width height cpp : Nat)
    (H : histogram) (min_cdf_R min_cdf_G min_cdf_B : Nat)
    (image_eq : List Nat) (px_idx : Nat) : Option (List Nat) :=
  match image[px_idx]?, image[px_idx + 1]?, image[px_idx + 2]? with
  | some r, some g, some b =>
    (store image_eq px_idx (remap_byte undef_byte H.R min_cdf_R width height r)).bind
    fun e1 => (store e1 (px_idx + 1) (remap_byte undef_byte H.G min_cdf_G width height g)).bind
    fun e2 => (store e2 (px_idx + 2) (remap_byte undef_byte H.B min_cdf_B width height b)).bind
    fun e3 =>
      if cpp = 4 then
        match image[px_idx + 3]? with
        | some a => store e3 (px_idx + 3) a
        | none => none
      else some e3
  | _, _, _ => none

/-- The remap loop of `histogram_eq` ("Create equalized image") over rows and columns,
starting from the freshly allocated buffer `image_eq`. -/
def remap_loop (undef_byte : Nat) (image : List Nat) (width height cpp : Nat)
    (H : histogram) (min_cdf_R min_cdf_G min_cdf_B : Nat) (image_eq : List Nat) :
    Option (List Nat) :=
  (List.range height).foldlM
    (fun e i => (List.range width).foldlM
      (fun e j => remap_pixel undef_byte image width height cpp H min_cdf_R min_cdf_G min_cdf_B
        e ((i * width + j) * cpp)) e) image_eq

/-- The function `histogram_eq`: accumulate the histogram, turn it into cumulative
tables, take `get_min_cdf` of each table, and remap every pixel into a new buffer of
`width * height * cpp` bytes (whose initial content, unspecified after `malloc`, is
taken as zeros). -/
def histogram_eq (undef_byte : Nat) (image : List Nat) (width height cpp : Nat) :
    Option (List Nat) :=
  (hist_loop image width height cpp histogram_init).bind fun H0 =>
    let H := cdf_loop H0
    remap_loop undef_byte image width height cpp H
      (get_min_cdf H.R) (get_min_cdf H.G) (get_min_cdf H.B)
      (List.replicate (width * height * cpp) 0)


/-! ## Views of the pipeline and the specification's vocabulary -/

/-- Table of channel `c`: `R`, `G`, `B` for the byte offsets 0, 1, 2 within a pixel. -/
def histogram.chan (H : histogram) (c : Nat) : List Nat :=
  match c with
  | 0 => H.R
  | 1 => H.G
  | _ => H.B

/-- The tables `H` after the cumulative loop of `histogram_eq`. -/
def cumulative_tables (image : List Nat) (width height cpp : Nat) : Option histogram :=
  (hist_loop image width height cpp histogram_init).map cdf_loop

/-- An image as the decoder delivers it: `width * height * cpp` bytes, each below 256,
with a size in the range of `int`. -/
def well_formed (image : List Nat) (width height cpp : Nat) : Prop :=
  image.length = width * height * cpp ∧ (∀ b ∈ image, b < 256)
    ∧ width * height * cpp ≤ INT_MAX

instance well_formed_decidable (image : List Nat) (width height cpp : Nat) :
    Decidable (well_formed image width height cpp) := by
  unfold well_formed; infer_instance

/-- Number of pixels among the first `n` whose channel-`c` byte equals `v`. -/
def pixel_count (image : List Nat) (cpp c v n : Nat) : Nat :=
  (List.range n).countP (fun p => decide (image[p * cpp + c]? = some v))

/-- A uniform-colour image: each colour channel holds one value across all pixels. -/
def uniform_colour (image : List Nat) (width height cpp : Nat) : Prop :=
  ∃ r g b, ∀ p, p < width * height →
    image[p * cpp]? = some r ∧ image[p * cpp + 1]? = some g ∧ image[p * cpp + 2]? = some b

/-- The specification's `cdf[c][i]`: the number of pixels whose channel-`c` value is at
most `i`. -/
def spec_cdf (image : List Nat) (width height cpp c i : Nat) : Nat :=
  (List.range (width * height)).countP (fun p =>
    match image[p * cpp + c]? with
    | some v => decide (v ≤ i)
    | none => false)

/-- The specification's `min { table[i] : table[i] > 0 }`, and 0 for a table without a
positive entry. -/
def min_positive (table : List Nat) : Nat :=
  ((table.filter (fun x => decide (0 < x))).min?).getD 0

/-- A table is non-decreasing: each entry is at most the next one. -/
def nondecreasing : List Nat → Bool
  | a :: b :: rest => decide (a ≤ b) && nondecreasing (b :: rest)
  | _ => true

/-- The specification's `min_cdf[c]`: the smallest strictly positive value of `cdf[c]`. -/
def spec_min_cdf (image : List Nat) (width height cpp c : Nat) : Nat :=
  min_positive ((List.range BINS).map (spec_cdf image width height cpp c))

/-- The specification's remap formula
`round((cdf - min_cdf) / (total_pixels - min_cdf) * 255)`, in exact arithmetic. -/
def equalized (cdf_value min_cdf total_pixels : Nat) : ℤ :=
  c_round (((cdf_value : ℚ) - (min_cdf : ℚ)) / ((total_pixels : ℚ) - (min_cdf : ℚ)) * 255)

/-- The remap formula `round((cdf - min_cdf) / (total_pixels - min_cdf) * 255)` evaluated
in binary32: the three counts are converted to binary32 and the subtraction, the division
and the multiplication are each rounded to binary32. -/
def equalized_binary32 (cdf_value min_cdf total_pixels : Nat) : ℤ :=
  c_round (binary32 (binary32 (binary32 (binary32 (cdf_value : ℚ) - binary32 (min_cdf : ℚ))
      / binary32 ((total_pixels : ℚ) - (min_cdf : ℚ))) * 255))

/-- The specification's new value of a channel-`c` byte `old` of an image. -/
def spec_new_value (image : List Nat) (width height cpp c old : Nat) : ℤ :=
  equalized (spec_cdf image width height cpp c old) (spec_min_cdf image width height cpp c)
    (width * height)

/-! ## The accelerator program -/

/-- The macro `WORKGROUP_SIZE` of `img_hist_eq_gpu.c`. -/
def WORKGROUP_SIZE : Nat := 256

/-- Number of values of a 64-bit `size_t`. -/
def SIZE_RANGE : Nat := 2 ^ 64

/-- The global work size `((img.size_px - 1) / local_item_size + 1) * local_item_size`
that `main` of `img_hist_eq_gpu.c` computes, in `size_t`, for the first and the third
kernel. -/
def global_item_size (size_px : Nat) : Nat :=
  (((size_px + SIZE_RANGE - 1) % SIZE_RANGE / WORKGROUP_SIZE + 1) * WORKGROUP_SIZE) % SIZE_RANGE

/-- Modelled from the spec: the kernel `img_histogram`, whose source text the program
loads at run time from a file that is not among the sources. Each work-item handles one
pixel and atomically increments the pixel's three bins; the increments commute, so the
work-items are taken in the order of their ids, and ids beyond the last pixel do nothing. -/
def img_histogram (img_in : List Nat) (hist : histogram) (size_px cpp global_size : Nat) :
    Option histogram :=
  (List.range global_size).foldlM
    (fun H gid => if gid < size_px then hist_pixel img_in H (gid * cpp) else some H) hist

/-- Modelled from the spec: the inclusive prefix sum `table[i] = sum(histogram[0..=i])`
that the kernel `histogram_cdfs` (not among the sources) computes for one channel. -/
def prefix_sums (hist : List Nat) : List Nat :=
  (List.range BINS).map (fun i => (hist.take (i + 1)).sum % UINT_RANGE)

/-- Modelled from the spec: the kernel `histogram_cdfs` (not among the sources), which
turns each histogram into its inclusive prefix sum and computes
`min_cdf[c] = min { table[c][i] : table[c][i] > 0 }`. -/
def histogram_cdfs (hist : histogram) : histogram × (Nat × Nat × Nat) :=
  let cdfs : histogram := ⟨prefix_sums hist.R, prefix_sums hist.G, prefix_sums hist.B⟩
  (cdfs, min_positive cdfs.R, min_positive cdfs.G, min_positive cdfs.B)

/-- Modelled from the spec: the byte `round((cdf[old] - min_cdf) / (total_pixels - min_cdf) * 255)`
that the kernel `correct_img` (not among the sources) writes; with a zero divisor the
byte is the parameter `undef_byte`, as in `remap_byte`. -/
def correct_byte (undef_byte : Nat) (cdf : List Nat) (min_cdf total_pixels old : Nat) : Nat :=
  if total_pixels = min_cdf then undef_byte
  else (equalized (cdf.getD old 0) min_cdf total_pixels % 256).toNat

/-- Modelled from the spec: one work-item of the kernel `correct_img` (not among the
sources): the three colour bytes of its pixel are remapped and the alpha byte, if
present, is copied unchanged. -/
def correct_pixel (undef_byte : Nat) (img_in : List Nat) (cdfs : histogram)
    (min_cdfs : Nat × Nat × Nat) (size_px cpp : Nat) (img_out : List Nat) (gid : Nat) :
    Option (List Nat) :=
  match img_in[gid * cpp]?, img_in[gid * cpp + 1]?, img_in[gid * cpp + 2]? with
  | some r, some g, some b =>
    (store img_out (gid * cpp) (correct_byte undef_byte cdfs.R min_cdfs.1 size_px r)).bind
    fun e1 => (store e1 (gid * cpp + 1) (correct_byte undef_byte cdfs.G min_cdfs.2.1 size_px g)).bind
    fun e2 => (store e2 (gid * cpp + 2) (correct_byte undef_byte cdfs.B min_cdfs.2.2 size_px b)).bind
    fun e3 =>
      if cpp = 4 then
        match img_in[gid * cpp + 3]? with
        | some a => store e3 (gid * cpp + 3) a
        | none => none
      else some e3
  | _, _, _ => none

/-- Modelled from the spec: the kernel `correct_img` (not among the sources), one
work-item per pixel, ids beyond the last pixel doing nothing. -/
def correct_img (undef_byte : Nat) (img_in img_out : List Nat) (cdfs : histogram)
    (min_cdfs : Nat × Nat × Nat) (size_px cpp global_size : Nat) : Option (List Nat) :=
  (List.range global_size).foldlM
    (fun e gid =>
      if gid < size_px then correct_pixel undef_byte img_in cdfs min_cdfs size_px cpp e gid
      else some e) img_out

/-- The pipeline that `main` of `img_hist_eq_gpu.c` dispatches on a loaded image:
`size_px = width * height`, `size_cpp = size_px * cpp`, the kernels `img_histogram`,
`histogram_cdfs` and `correct_img` in queue order over device buffers (taken as zeros
when created), and the read-back of the output buffer. -/
def gpu_main (undef_byte : Nat) (data : List Nat) (width height cpp : Nat) :
    Option (List Nat) :=
  let size_px := width * height
  let size_cpp := size_px * cpp
  (img_histogram data histogram_init size_px cpp (global_item_size size_px)).bind fun hist =>
    correct_img undef_byte data (List.replicate size_cpp 0) (histogram_cdfs hist).1
      (histogram_cdfs hist).2 size_px cpp (global_item_size size_px)

/-! ## Loop invariants -/

/-- State of one histogram table after `n` pixels. -/
def tbl_inv (image : List Nat) (cpp c n : Nat) (t : List Nat) : Prop :=
  t.length = BINS ∧ t.sum = n ∧ ∀ v, t.getD v 0 = pixel_count image cpp c v n

/-- State of the three histogram tables after `n` pixels. -/
def hist_inv (image : List Nat) (cpp n : Nat) (H : histogram) : Prop :=
  ∀ c, c < 3 → tbl_inv image cpp c n (H.chan c)

/-- State of a table after `k` iterations of the cumulative loop started on `h`. -/
def cdf_inv (h : List Nat) (k : Nat) (t : List Nat) : Prop :=
  t.length = h.length ∧ (∀ i, i ≤ k → t.getD i 0 = (h.take (i + 1)).sum)
    ∧ ∀ i, k < i → t.getD i 0 = h.getD i 0

/-- What the remap loop leaves at pixel `p` of the output buffer `e`. -/
def pixel_done (undef_byte : Nat) (image : List Nat) (width height cpp : Nat)
    (H : histogram) (mR mG mB : Nat) (e : List Nat) (p : Nat) : Prop :=
  ∃ r g b, image[p * cpp]? = some r ∧ image[p * cpp + 1]? = some g ∧ image[p * cpp + 2]? = some b
    ∧ e[p * cpp]? = some (remap_byte undef_byte H.R mR width height r)
    ∧ e[p * cpp + 1]? = some (remap_byte undef_byte H.G mG width height g)
    ∧ e[p * cpp + 2]? = some (remap_byte undef_byte H.B mB width height b)
    ∧ (cpp = 4 → e[p * cpp + 3]? = image[p * cpp + 3]?)
    ∧ (cpp = 4 → p * cpp + 3 < image.length)

/-- Facts about a cumulative table `T` built from the histogram `h` of `total` pixels. -/
def table_ok (h T : List Nat) (total : Nat) : Prop :=
  T.length = BINS ∧ get_min_cdf T = T.getD 0 0
    ∧ ∀ v, v < BINS → T.getD v 0 = (h.take (v + 1)).sum
        ∧ T.getD 0 0 ≤ T.getD v 0 ∧ T.getD v 0 ≤ total

/-- Running sums of a list, started at `acc`: a linear-time form of the inclusive
prefix sums, used to evaluate cumulative tables. -/
def running_sums : Nat → List Nat → List Nat
  | _, [] => []
  | acc, x :: xs => (acc + x) :: running_sums (acc + x) xs

/-! ## Concrete inputs -/

/-- The 2x2 three-channel image with `R = G = B = [10, 10, 200, 200]`. -/
def scenario_image : List Nat := [10, 10, 10, 10, 10, 10, 200, 200, 200, 200, 200, 200]

/-- Histogram of each channel of `scenario_image`: bin 10 and bin 200 hold 2. -/
def scenario_hist : List Nat :=
  List.replicate 10 0 ++ 2 :: List.replicate 189 0 ++ 2 :: List.replicate 55 0

/-- Cumulative table of each channel of `scenario_image`: 0 below bin 10, 2 for the bins
10 to 199, 4 from bin 200 on. -/
def scenario_table : List Nat :=
  List.replicate 10 0 ++ List.replicate 190 2 ++ List.replicate 56 4

/-- The three-channel image whose pixels have the values `vals`, each value being the
red, the green and the blue byte of its pixel. -/
def rgb_pixels : List Nat → List Nat
  | [] => []
  | v :: vs => v :: v :: v :: rgb_pixels vs

/-- The 33149x1 three-channel image with 33084 pixels of value 1 followed by 65 pixels
of value 2. -/
def tie_image : List Nat := rgb_pixels (List.replicate 33084 1 ++ List.replicate 65 2)

/-- The 4097x4099 three-channel image that is black except for its last pixel, of
value 1. -/
def large_image : List Nat := rgb_pixels (List.replicate 16793602 0 ++ [1])

/-- The 1x1 three-channel black image. -/
def black_pixel : List Nat := [0, 0, 0]

/-- The 1x1 single-channel image. -/
def grey_pixel : List Nat := [5]

/-- The 1x1 two-channel image. -/
def grey_alpha_pixel : List Nat := [5, 255]

/-! ## Loops as folds -/

theorem foldlM_range_inv {σ : Type} (f : σ → Nat → Option σ) (P : Nat → σ → Prop) :
    ∀ (n : Nat) (s0 : σ), P 0 s0 →
      (∀ k s, k < n → P k s → ∃ s', f s k = some s' ∧ P (k + 1) s') →
      ∃ s, (List.range n).foldlM f s0 = some s ∧ P n s := by
  intro n
  induction n with
  | zero => intro s0 h0 _; exact ⟨s0, rfl, h0⟩
  | succ n ih =>
    intro s0 h0 hstep
    obtain ⟨s, hs, hP⟩ := ih s0 h0 (fun k s hk hp => hstep k s (Nat.lt_succ_of_lt hk) hp)
    obtain ⟨s', hs', hP'⟩ := hstep n s (Nat.lt_succ_self n) hP
    refine ⟨s', ?_, hP'⟩
    rw [List.range_succ, List.foldlM_append, hs]
    simp [hs']

theorem foldlM_range_flatten {σ : Type} (f : σ → Nat → Option σ) (w : Nat) :
    ∀ (h : Nat) (s : σ),
      (List.range h).foldlM (fun s i => (List.range w).foldlM (fun s j => f s (i * w + j)) s) s
        = (List.range (h * w)).foldlM f s := by
  intro h
  induction h with
  | zero => intro s; simp
  | succ h ih =>
    intro s
    rw [List.range_succ, List.foldlM_append, ih, Nat.succ_mul, List.range_add,
      List.foldlM_append]
    congr 1
    funext s'
    simp [List.foldlM_map]

theorem foldl_range'_inv {σ : Type} (f : σ → Nat → σ) (P : Nat → σ → Prop) (s : Nat) :
    ∀ (n : Nat) (a : σ), P 0 a →
      (∀ k x, k < n → P k x → P (k + 1) (f x (s + k))) →
      P n ((List.range' s n).foldl f a) := by
  intro n
  induction n with
  | zero => intro a h0 _; simpa using h0
  | succ n ih =>
    intro a h0 hstep
    rw [List.range'_concat, List.foldl_append]
    simp only [List.foldl_cons, List.foldl_nil, Nat.one_mul]
    exact hstep n _ (Nat.lt_succ_self n) (ih a h0 (fun k x hk hp => hstep k x (Nat.lt_succ_of_lt hk) hp))

theorem sum_set_add : ∀ (l : List Nat) (i x : Nat), i < l.length →
    (l.set i (l.getD i 0 + x)).sum = l.sum + x := by
  intro l
  induction l with
  | nil => intro i x hi; simp at hi
  | cons a l ih =>
    intro i x hi
    cases i with
    | zero => simp; omega
    | succ i =>
      have hi' : i < l.length := by simpa using hi
      have := ih i x hi'
      simp only [List.getD_eq_getElem?_getD] at this
      simp [this]; omega

theorem getD_le_sum : ∀ (l : List Nat) (i : Nat), l.getD i 0 ≤ l.sum := by
  intro l
  induction l with
  | nil => intro i; simp
  | cons a l ih =>
    intro i
    cases i with
    | zero => simp
    | succ i =>
      have := ih i
      simp only [List.getD_eq_getElem?_getD] at this
      simp; omega

theorem hist_incr_length (t : List Nat) (r : Nat) : (hist_incr t r).length = t.length := by
  simp [hist_incr]

theorem hist_incr_getD (t : List Nat) (r v : Nat) (hr : r < t.length)
    (hs : t.sum + 1 < UINT_RANGE) :
    (hist_incr t r).getD v 0 = t.getD v 0 + (if r = v then 1 else 0) := by
  have hle := getD_le_sum t r
  have hmod : (t.getD r 0 + 1) % UINT_RANGE = t.getD r 0 + 1 := Nat.mod_eq_of_lt (by omega)
  unfold hist_incr
  rw [hmod]
  by_cases h : r = v
  · subst h
    simp [List.getElem?_set, hr]
  · simp [List.getElem?_set, h]

theorem hist_incr_sum (t : List Nat) (r : Nat) (hr : r < t.length)
    (hs : t.sum + 1 < UINT_RANGE) : (hist_incr t r).sum = t.sum + 1 := by
  have hle := getD_le_sum t r
  have hmod : (t.getD r 0 + 1) % UINT_RANGE = t.getD r 0 + 1 := Nat.mod_eq_of_lt (by omega)
  unfold hist_incr
  rw [hmod]
  exact sum_set_add t r 1 hr


theorem pixel_count_succ (image : List Nat) (cpp c v n : Nat) :
    pixel_count image cpp c v (n + 1)
      = pixel_count image cpp c v n + (if image[n * cpp + c]? = some v then 1 else 0) := by
  simp [pixel_count, List.range_succ, List.countP_append, List.countP_singleton]

theorem tbl_inv_init (image : List Nat) (cpp c : Nat) :
    tbl_inv image cpp c 0 (List.replicate BINS 0) := by
  refine ⟨by simp, by simp, ?_⟩
  intro v
  simp only [pixel_count, List.range_zero, List.countP_nil, List.getD_eq_getElem?_getD,
    List.getElem?_replicate]
  split <;> rfl

theorem tbl_inv_step (image : List Nat) (cpp c n r : Nat) (t : List Nat)
    (ht : tbl_inv image cpp c n t) (hr : image[n * cpp + c]? = some r) (hr256 : r < BINS)
    (hn : n + 1 < UINT_RANGE) : tbl_inv image cpp c (n + 1) (hist_incr t r) := by
  obtain ⟨hlen, hsum, hcnt⟩ := ht
  have hrl : r < t.length := by rw [hlen]; exact hr256
  have hs : t.sum + 1 < UINT_RANGE := by rw [hsum]; exact hn
  refine ⟨by rw [hist_incr_length, hlen], by rw [hist_incr_sum t r hrl hs, hsum], ?_⟩
  intro v
  rw [hist_incr_getD t r v hrl hs, hcnt v, pixel_count_succ, hr]
  simp

/-- Offsets of the colour bytes of pixel `n` lie inside a buffer of `total * cpp` bytes. -/
theorem px_offset_lt (n total cpp k : Nat) (hn : n < total) (hk : k < cpp) :
    n * cpp + k < total * cpp := by
  have h1 : (n + 1) * cpp ≤ total * cpp := Nat.mul_le_mul_right cpp hn
  rw [Nat.succ_mul] at h1
  omega

theorem hist_loop_flat (image : List Nat) (width height cpp : Nat) (H : histogram) :
    hist_loop image width height cpp H
      = (List.range (height * width)).foldlM (fun H p => hist_pixel image H (p * cpp)) H :=
  foldlM_range_flatten (fun H p => hist_pixel image H (p * cpp)) width height H

theorem hist_loop_spec (image : List Nat) (width height cpp : Nat)
    (hwf : well_formed image width height cpp) (hc : 3 ≤ cpp) :
    ∃ H, hist_loop image width height cpp histogram_init = some H
      ∧ hist_inv image cpp (width * height) H := by
  obtain ⟨hlen, hb, hmax⟩ := hwf
  rw [hist_loop_flat, Nat.mul_comm height width]
  apply foldlM_range_inv (fun H p => hist_pixel image H (p * cpp)) (hist_inv image cpp)
  · intro c hc3
    obtain rfl | rfl | rfl : c = 0 ∨ c = 1 ∨ c = 2 := by omega
    all_goals exact tbl_inv_init _ _ _
  · intro k H hk hH
    have h0 : k * cpp + 0 < image.length := by rw [hlen]; exact px_offset_lt k _ cpp 0 hk (by omega)
    have h1 : k * cpp + 1 < image.length := by rw [hlen]; exact px_offset_lt k _ cpp 1 hk (by omega)
    have h2 : k * cpp + 2 < image.length := by rw [hlen]; exact px_offset_lt k _ cpp 2 hk (by omega)
    have hk1 : k + 1 < UINT_RANGE := by
      have : width * height ≤ width * height * cpp := Nat.le_mul_of_pos_right _ (by omega)
      have : INT_MAX < UINT_RANGE := by decide
      omega
    have e0 : image[k * cpp + 0]? = some (image[k * cpp + 0]) := List.getElem?_eq_getElem h0
    have e1 : image[k * cpp + 1]? = some (image[k * cpp + 1]) := List.getElem?_eq_getElem h1
    have e2 : image[k * cpp + 2]? = some (image[k * cpp + 2]) := List.getElem?_eq_getElem h2
    have hR : tbl_inv image cpp 0 k H.R := hH 0 (by omega)
    have hG : tbl_inv image cpp 1 k H.G := hH 1 (by omega)
    have hB : tbl_inv image cpp 2 k H.B := hH 2 (by omega)
    refine ⟨⟨hist_incr H.R (image[k * cpp + 0]), hist_incr H.G (image[k * cpp + 1]),
      hist_incr H.B (image[k * cpp + 2])⟩, ?_, ?_⟩
    · simp only [Nat.add_zero] at e0
      simp [hist_pixel, e0, e1, e2]
    · intro c hc3
      obtain rfl | rfl | rfl : c = 0 ∨ c = 1 ∨ c = 2 := by omega
      · exact tbl_inv_step image cpp 0 k _ H.R hR e0 (hb _ (List.getElem_mem _)) hk1
      · exact tbl_inv_step image cpp 1 k _ H.G hG e1 (hb _ (List.getElem_mem _)) hk1
      · exact tbl_inv_step image cpp 2 k _ H.B hB e2 (hb _ (List.getElem_mem _)) hk1

theorem cdf_loop_chan (H : histogram) :
    cdf_loop H = ⟨cdf_table H.R, cdf_table H.G, cdf_table H.B⟩ := by
  unfold cdf_loop cdf_table
  generalize List.range' 1 (BINS - 1) = l
  induction l generalizing H with
  | nil => rfl
  | cons a l ih => simp only [List.foldl_cons]; rw [ih]

theorem sum_take_succ_getD : ∀ (l : List Nat) (i : Nat),
    (l.take (i + 1)).sum = (l.take i).sum + l.getD i 0 := by
  intro l
  induction l with
  | nil => intro i; simp
  | cons a l ih =>
    intro i
    cases i with
    | zero => simp
    | succ i =>
      have := ih i
      simp only [List.getD_eq_getElem?_getD] at this
      simp [this]; omega

theorem sum_take_le (l : List Nat) (i : Nat) : (l.take i).sum ≤ l.sum := by
  have := List.sum_take_add_sum_drop l i
  omega

theorem cdf_inv_step (h : List Nat) (k : Nat) (t : List Nat) (hs : h.sum < UINT_RANGE)
    (hk : 1 + k < h.length) (ht : cdf_inv h k t) : cdf_inv h (k + 1) (cdf_add t (1 + k)) := by
  obtain ⟨hlen, hle, hgt⟩ := ht
  have h1 : t.getD (1 + k) 0 = h.getD (1 + k) 0 := hgt (1 + k) (by omega)
  have h2 : t.getD (1 + k - 1) 0 = (h.take (k + 1)).sum := by
    have : 1 + k - 1 = k := by omega
    rw [this]; exact hle k (Nat.le_refl k)
  have h3 : (h.take (k + 1 + 1)).sum = (h.take (k + 1)).sum + h.getD (k + 1) 0 :=
    sum_take_succ_getD h (k + 1)
  have h4 := sum_take_le h (k + 1 + 1)
  have h5 : 1 + k = k + 1 := by omega
  have hval : (t.getD (1 + k) 0 + t.getD (1 + k - 1) 0) % UINT_RANGE = (h.take (k + 1 + 1)).sum := by
    rw [h1, h2, h3, h5, Nat.add_comm (h.getD (k + 1) 0)]
    apply Nat.mod_eq_of_lt
    omega
  unfold cdf_add
  rw [hval]
  refine ⟨by simp [hlen], ?_, ?_⟩
  · intro i hi
    by_cases hik : i = k + 1
    · subst hik
      have : k + 1 < t.length := by omega
      simp [h5, List.getElem?_set, this]
    · have hne : 1 + k ≠ i := by omega
      have := hle i (by omega)
      simp only [List.getD_eq_getElem?_getD] at this ⊢
      rw [List.getElem?_set_ne hne]
      exact this
  · intro i hi
    have hne : 1 + k ≠ i := by omega
    have := hgt i (by omega)
    simp only [List.getD_eq_getElem?_getD] at this ⊢
    rw [List.getElem?_set_ne hne]
    exact this

theorem cdf_table_spec (h : List Nat) (hlen : h.length = BINS) (hs : h.sum < UINT_RANGE) :
    (cdf_table h).length = BINS ∧ ∀ i, i < BINS → (cdf_table h).getD i 0 = (h.take (i + 1)).sum := by
  have key : cdf_inv h (BINS - 1) (cdf_table h) := by
    unfold cdf_table
    apply foldl_range'_inv cdf_add (cdf_inv h) 1 (BINS - 1) h
    · refine ⟨rfl, ?_, fun i _ => rfl⟩
      intro i hi
      have : i = 0 := by omega
      subst this
      cases h <;> simp
    · intro k x hk hx
      exact cdf_inv_step h k x hs (by rw [hlen]; unfold BINS at hk ⊢; omega) hx
  refine ⟨key.1.trans hlen, ?_⟩
  intro i hi
  exact key.2.1 i (by unfold BINS at hi ⊢; omega)


theorem get_min_cdf_of_le (T : List Nat) (h : ∀ i, i < BINS → T.getD 0 0 ≤ T.getD i 0) :
    get_min_cdf T = T.getD 0 0 := by
  unfold get_min_cdf
  apply foldl_range'_inv _ (fun _ m => m = T.getD 0 0) 1 (BINS - 1)
  · rfl
  · intro k x hk hx
    have := h (1 + k) (by unfold BINS at hk ⊢; omega)
    subst hx
    rw [if_neg]
    omega

theorem sum_take_mono (l : List Nat) (i : Nat) : ∀ j, i ≤ j → (l.take i).sum ≤ (l.take j).sum := by
  intro j hij
  induction j with
  | zero =>
    have : i = 0 := by omega
    subst this; exact Nat.le_refl _
  | succ j ih =>
    by_cases h : i = j + 1
    · subst h; exact Nat.le_refl _
    · have := ih (by omega)
      rw [sum_take_succ_getD]
      omega

theorem remap_pixel_spec (undef_byte : Nat) (image : List Nat) (width height cpp : Nat)
    (H : histogram) (mR mG mB : Nat) (e : List Nat) (k : Nat)
    (hlen : e.length = image.length) (hc : cpp = 3 ∨ cpp = 4)
    (hk : k * cpp + cpp ≤ image.length) :
    ∃ e' r g b, remap_pixel undef_byte image width height cpp H mR mG mB e (k * cpp) = some e'
      ∧ e'.length = image.length
      ∧ image[k * cpp]? = some r ∧ image[k * cpp + 1]? = some g ∧ image[k * cpp + 2]? = some b
      ∧ e'[k * cpp]? = some (remap_byte undef_byte H.R mR width height r)
      ∧ e'[k * cpp + 1]? = some (remap_byte undef_byte H.G mG width height g)
      ∧ e'[k * cpp + 2]? = some (remap_byte undef_byte H.B mB width height b)
      ∧ (cpp = 4 → e'[k * cpp + 3]? = image[k * cpp + 3]?)
      ∧ (cpp = 4 → k * cpp + 3 < image.length)
      ∧ ∀ q, q < k * cpp → e'[q]? = e[q]? := by
  rcases hc with hc | hc
  · subst hc
    have h0 : k * 3 < image.length := by omega
    have h1 : k * 3 + 1 < image.length := by omega
    have h2 : k * 3 + 2 < image.length := by omega
    have e0 : image[k * 3]? = some (image[k * 3]) := List.getElem?_eq_getElem h0
    have e1 : image[k * 3 + 1]? = some (image[k * 3 + 1]) := List.getElem?_eq_getElem h1
    have e2 : image[k * 3 + 2]? = some (image[k * 3 + 2]) := List.getElem?_eq_getElem h2
    refine ⟨((e.set (k * 3) (remap_byte undef_byte H.R mR width height (image[k * 3]))).set
        (k * 3 + 1) (remap_byte undef_byte H.G mG width height (image[k * 3 + 1]))).set
        (k * 3 + 2) (remap_byte undef_byte H.B mB width height (image[k * 3 + 2])),
        _, _, _, ?_, ?_, e0, e1, e2, ?_, ?_, ?_, ?_, ?_, ?_⟩
    · simp [remap_pixel, e0, e1, e2, store, hlen, h0, h1, h2]
    · simp [hlen]
    · simp [List.getElem?_set, hlen, h0]
    · simp [List.getElem?_set, hlen, h1]
    · simp [List.getElem?_set, hlen, h2]
    · intro h4; omega
    · intro h4; omega
    · intro q hq
      rw [List.getElem?_set_ne (by omega), List.getElem?_set_ne (by omega),
        List.getElem?_set_ne (by omega)]
  · subst hc
    have h0 : k * 4 < image.length := by omega
    have h1 : k * 4 + 1 < image.length := by omega
    have h2 : k * 4 + 2 < image.length := by omega
    have h3 : k * 4 + 3 < image.length := by omega
    have e0 : image[k * 4]? = some (image[k * 4]) := List.getElem?_eq_getElem h0
    have e1 : image[k * 4 + 1]? = some (image[k * 4 + 1]) := List.getElem?_eq_getElem h1
    have e2 : image[k * 4 + 2]? = some (image[k * 4 + 2]) := List.getElem?_eq_getElem h2
    have e3 : image[k * 4 + 3]? = some (image[k * 4 + 3]) := List.getElem?_eq_getElem h3
    refine ⟨(((e.set (k * 4) (remap_byte undef_byte H.R mR width height (image[k * 4]))).set
        (k * 4 + 1) (remap_byte undef_byte H.G mG width height (image[k * 4 + 1]))).set
        (k * 4 + 2) (remap_byte undef_byte H.B mB width height (image[k * 4 + 2]))).set
        (k * 4 + 3) (image[k * 4 + 3]),
        _, _, _, ?_, ?_, e0, e1, e2, ?_, ?_, ?_, ?_, ?_, ?_⟩
    · simp [remap_pixel, e0, e1, e2, e3, store, hlen, h0, h1, h2, h3]
    · simp [hlen]
    · simp [List.getElem?_set, hlen, h0]
    · simp [List.getElem?_set, hlen, h1]
    · simp [List.getElem?_set, hlen, h2]
    · intro _; simp [List.getElem?_set, hlen, h3]
    · intro _; exact h3
    · intro q hq
      rw [List.getElem?_set_ne (by omega), List.getElem?_set_ne (by omega),
        List.getElem?_set_ne (by omega), List.getElem?_set_ne (by omega)]


theorem remap_loop_flat (undef_byte : Nat) (image : List Nat) (width height cpp : Nat)
    (H : histogram) (mR mG mB : Nat) (e : List Nat) :
    remap_loop undef_byte image width height cpp H mR mG mB e
      = (List.range (height * width)).foldlM
          (fun e p => remap_pixel undef_byte image width height cpp H mR mG mB e (p * cpp)) e :=
  foldlM_range_flatten
    (fun e p => remap_pixel undef_byte image width height cpp H mR mG mB e (p * cpp)) width height e

theorem remap_loop_spec (undef_byte : Nat) (image : List Nat) (width height cpp : Nat)
    (H : histogram) (mR mG mB : Nat) (e0 : List Nat)
    (hlen : image.length = width * height * cpp) (hc : cpp = 3 ∨ cpp = 4)
    (he0 : e0.length = image.length) :
    ∃ e, remap_loop undef_byte image width height cpp H mR mG mB e0 = some e
      ∧ e.length = image.length
      ∧ ∀ p, p < width * height →
          pixel_done undef_byte image width height cpp H mR mG mB e p := by
  rw [remap_loop_flat, Nat.mul_comm height width]
  have key := foldlM_range_inv
    (fun e p => remap_pixel undef_byte image width height cpp H mR mG mB e (p * cpp))
    (fun n e => e.length = image.length
      ∧ ∀ p, p < n → pixel_done undef_byte image width height cpp H mR mG mB e p)
    (width * height) e0 ⟨he0, fun p hp => absurd hp (Nat.not_lt_zero p)⟩ ?_
  · obtain ⟨e, h1, h2, h3⟩ := key
    exact ⟨e, h1, h2, h3⟩
  · intro k e hk ⟨hel, hdone⟩
    have hkc : k * cpp + cpp ≤ image.length := by
      have := Nat.mul_le_mul_right cpp (Nat.succ_le_of_lt hk)
      rw [Nat.succ_mul] at this
      omega
    obtain ⟨e', r, g, b, hrun, hlen', hr, hg, hb, oR, oG, oB, oA, oAl, hframe⟩ :=
      remap_pixel_spec undef_byte image width height cpp H mR mG mB e k hel hc hkc
    refine ⟨e', hrun, hlen', ?_⟩
    intro p hp
    by_cases hpk : p = k
    · subst hpk
      exact ⟨r, g, b, hr, hg, hb, oR, oG, oB, oA, oAl⟩
    · have hpk' : p < k := by omega
      have hle : p * cpp + cpp ≤ k * cpp := by
        have := Nat.mul_le_mul_right cpp (Nat.succ_le_of_lt hpk')
        rw [Nat.succ_mul] at this
        exact this
      obtain ⟨r', g', b', hr', hg', hb', pR, pG, pB, pA, pAl⟩ := hdone p hpk'
      refine ⟨r', g', b', hr', hg', hb', ?_, ?_, ?_, ?_, pAl⟩
      · rw [hframe _ (by omega)]; exact pR
      · rw [hframe _ (by omega)]; exact pG
      · rw [hframe _ (by omega)]; exact pB
      · intro h4
        rw [hframe _ (by omega)]; exact pA h4


/-! ## Binary32 rounding -/

theorem pow2_eq_zpow (k : ℤ) : pow2 k = (2 : ℚ) ^ k := by
  unfold pow2
  split
  · rename_i h
    have hk : k = (k.toNat : ℤ) := (Int.toNat_of_nonneg h).symm
    conv_rhs => rw [hk]
    rw [zpow_natCast]
    push_cast
    rfl
  · rename_i h
    have h' : 0 ≤ -k := by omega
    have hk : k = -((-k).toNat : ℤ) := by rw [Int.toNat_of_nonneg h']; omega
    conv_rhs => rw [hk]
    rw [zpow_neg, zpow_natCast]
    push_cast
    rw [one_div]

theorem pow2_pos (k : ℤ) : 0 < pow2 k := by
  rw [pow2_eq_zpow]
  positivity

theorem pow2_add (j k : ℤ) : pow2 (j + k) = pow2 j * pow2 k := by
  simp only [pow2_eq_zpow]
  exact zpow_add₀ (by norm_num) j k

theorem pow2_lt_iff (j k : ℤ) : pow2 j < pow2 k ↔ j < k := by
  simp only [pow2_eq_zpow]
  exact zpow_lt_zpow_iff_right₀ (by norm_num)

theorem pow2_le_iff (j k : ℤ) : pow2 j ≤ pow2 k ↔ j ≤ k := by
  simp only [pow2_eq_zpow]
  exact zpow_le_zpow_iff_right₀ (by norm_num)

theorem pow2_natCast (n : ℕ) : pow2 (n : ℤ) = ((2 ^ n : ℕ) : ℚ) := by
  rw [pow2_eq_zpow, zpow_natCast]
  push_cast
  rfl


theorem log2_fuel_spec : ∀ (fuel n : Nat), 0 < n → n ≤ fuel →
    2 ^ log2_fuel fuel n ≤ n ∧ n < 2 ^ (log2_fuel fuel n + 1) := by
  intro fuel
  induction fuel with
  | zero => intro n h0 h1; omega
  | succ fuel ih =>
    intro n h0 h1
    unfold log2_fuel
    by_cases h2 : n < 2
    · rw [if_pos h2]
      have : n = 1 := by omega
      subst this
      decide
    · rw [if_neg h2]
      have h3 : 0 < n / 2 := Nat.div_pos (by omega) (by decide)
      have h4 : n / 2 ≤ fuel := by omega
      obtain ⟨h5, h6⟩ := ih (n / 2) h3 h4
      constructor
      · rw [Nat.pow_succ]
        omega
      · rw [Nat.pow_succ]
        omega

theorem nat_log2_spec (n : Nat) (h : 0 < n) :
    2 ^ nat_log2 n ≤ n ∧ n < 2 ^ (nat_log2 n + 1) :=
  log2_fuel_spec n n h (Nat.le_refl n)

theorem abs_eq_natAbs_div (x : ℚ) : |x| = (x.num.natAbs : ℚ) / (x.den : ℚ) := by
  have h := Rat.num_div_den x
  conv_lhs => rw [← h]
  rw [abs_div, Nat.abs_cast, ← Int.cast_abs, Int.abs_eq_natAbs, Int.cast_natCast]

/-- The exponent `ilog2 x` of a non-zero rational brackets its magnitude. -/
theorem ilog2_spec (x : ℚ) (hx : x ≠ 0) :
    pow2 (ilog2 x) ≤ |x| ∧ |x| < pow2 (ilog2 x + 1) := by
  have hd : (0 : ℚ) < (x.den : ℚ) := by exact_mod_cast x.den_pos
  have hn0 : 0 < x.num.natAbs := Int.natAbs_pos.mpr (Rat.num_ne_zero.mpr hx)
  obtain ⟨n1, n2⟩ := nat_log2_spec x.num.natAbs hn0
  obtain ⟨d1, d2⟩ := nat_log2_spec x.den x.den_pos
  have n1q : ((2 : ℚ)) ^ (nat_log2 x.num.natAbs) ≤ (x.num.natAbs : ℚ) := by exact_mod_cast n1
  have n2q : (x.num.natAbs : ℚ) < (2 : ℚ) ^ (nat_log2 x.num.natAbs + 1) := by exact_mod_cast n2
  have d1q : ((2 : ℚ)) ^ (nat_log2 x.den) ≤ (x.den : ℚ) := by exact_mod_cast d1
  have d2q : (x.den : ℚ) < (2 : ℚ) ^ (nat_log2 x.den + 1) := by exact_mod_cast d2
  rw [abs_eq_natAbs_div]
  set n := x.num.natAbs with hn
  set d := x.den with hdd
  set ln := nat_log2 n with hln
  set ld := nat_log2 d with hld
  have two_pos : (0 : ℚ) < 2 := by norm_num
  have hpld : (0 : ℚ) < (2 : ℚ) ^ ld := by positivity
  unfold ilog2
  simp only [← hn, ← hdd, ← hln, ← hld]
  by_cases hc : pow2 ((ln : ℤ) - (ld : ℤ)) * (d : ℚ) ≤ (n : ℚ)
  · rw [if_pos hc]
    constructor
    · rw [le_div_iff₀ hd]; exact hc
    · rw [div_lt_iff₀ hd]
      have e1 : pow2 ((ln : ℤ) - (ld : ℤ) + 1) * (2 : ℚ) ^ ld = (2 : ℚ) ^ (ln + 1) := by
        rw [pow2_eq_zpow, ← zpow_natCast (2 : ℚ) ld, ← zpow_add₀ (by norm_num),
          ← zpow_natCast (2 : ℚ) (ln + 1)]
        congr 1
        push_cast
        ring
      calc (n : ℚ) < (2 : ℚ) ^ (ln + 1) := n2q
        _ = pow2 ((ln : ℤ) - (ld : ℤ) + 1) * (2 : ℚ) ^ ld := e1.symm
        _ ≤ pow2 ((ln : ℤ) - (ld : ℤ) + 1) * (d : ℚ) :=
            mul_le_mul_of_nonneg_left d1q (le_of_lt (pow2_pos _))
  · rw [if_neg hc]
    constructor
    · rw [le_div_iff₀ hd]
      have e1 : pow2 ((ln : ℤ) - (ld : ℤ) - 1) * (2 : ℚ) ^ (ld + 1) = (2 : ℚ) ^ ln := by
        rw [pow2_eq_zpow, ← zpow_natCast (2 : ℚ) (ld + 1), ← zpow_add₀ (by norm_num),
          ← zpow_natCast (2 : ℚ) ln]
        congr 1
        push_cast
        ring
      calc pow2 ((ln : ℤ) - (ld : ℤ) - 1) * (d : ℚ)
          ≤ pow2 ((ln : ℤ) - (ld : ℤ) - 1) * (2 : ℚ) ^ (ld + 1) :=
            mul_le_mul_of_nonneg_left (le_of_lt d2q) (le_of_lt (pow2_pos _))
        _ = (2 : ℚ) ^ ln := e1
        _ ≤ (n : ℚ) := n1q
    · rw [div_lt_iff₀ hd]
      have : (ln : ℤ) - (ld : ℤ) - 1 + 1 = (ln : ℤ) - (ld : ℤ) := by ring
      rw [this]
      exact lt_of_not_le hc

theorem ilog2_lt (x : ℚ) (hx : x ≠ 0) (E : ℤ) (h : |x| < pow2 E) : ilog2 x < E := by
  have h1 := (ilog2_spec x hx).1
  exact (pow2_lt_iff _ _).mp (lt_of_le_of_lt h1 h)


theorem rne_intCast (n : ℤ) : rne (n : ℚ) = n := by
  unfold rne
  simp

theorem rne_le (y : ℚ) (n : ℤ) (h : y ≤ (n : ℚ)) : rne y ≤ n := by
  by_cases he : y = (n : ℚ)
  · rw [he, rne_intCast]
  · have hlt : y < (n : ℚ) := lt_of_le_of_ne h he
    have hf : ⌊y⌋ < n := Int.floor_lt.mpr hlt
    unfold rne
    split
    · omega
    · split
      · omega
      · split <;> omega

theorem rne_nonneg (y : ℚ) (h : 0 ≤ y) : 0 ≤ rne y := by
  have hf : 0 ≤ ⌊y⌋ := Int.floor_nonneg.mpr h
  unfold rne
  split
  · exact hf
  · split
    · omega
    · split <;> omega

theorem binary32_nonneg (x : ℚ) (h : 0 ≤ x) : 0 ≤ binary32 x := by
  unfold binary32
  split
  · exact le_refl 0
  · have hy : 0 ≤ x / pow2 (ulp_exp x) := div_nonneg h (le_of_lt (pow2_pos _))
    have hr : (0 : ℚ) ≤ (rne (x / pow2 (ulp_exp x)) : ℚ) := by
      exact_mod_cast rne_nonneg _ hy
    exact mul_nonneg hr (le_of_lt (pow2_pos _))

/-- A power of two with exponent at most 0 divides the integers. -/
theorem int_div_pow2 (t : ℤ) (k : ℤ) (hk : k ≤ 0) :
    (t : ℚ) / pow2 k = ((t * 2 ^ (-k).toNat : ℤ) : ℚ) := by
  have h' : 0 ≤ -k := by omega
  have e : pow2 k * pow2 (-k) = 1 := by
    rw [← pow2_add]
    have : k + -k = 0 := by ring
    rw [this]
    rfl
  have e2 : pow2 (-k) = ((2 ^ (-k).toNat : ℕ) : ℚ) := by
    conv_lhs => rw [← Int.toNat_of_nonneg h']
    exact pow2_natCast _
  rw [div_eq_iff (ne_of_gt (pow2_pos k))]
  push_cast
  rw [← Nat.cast_ofNat (R := ℚ), ← Nat.cast_pow, ← e2, mul_assoc, mul_comm (pow2 (-k)), e, mul_one]

theorem binary32_le_int (x : ℚ) (t : ℤ) (hx : x ≤ (t : ℚ)) (hk : ulp_exp x ≤ 0) :
    binary32 x ≤ (t : ℚ) := by
  unfold binary32
  split
  · rename_i h0
    rw [h0] at hx
    exact hx
  · have hp := pow2_pos (ulp_exp x)
    have hy : x / pow2 (ulp_exp x) ≤ ((t * 2 ^ (-(ulp_exp x)).toNat : ℤ) : ℚ) := by
      rw [← int_div_pow2 t _ hk]
      exact div_le_div_of_nonneg_right hx (le_of_lt hp)
    have hr := rne_le _ _ hy
    have hrq : (rne (x / pow2 (ulp_exp x)) : ℚ) ≤ ((t * 2 ^ (-(ulp_exp x)).toNat : ℤ) : ℚ) := by
      exact_mod_cast hr
    calc (rne (x / pow2 (ulp_exp x)) : ℚ) * pow2 (ulp_exp x)
        ≤ ((t * 2 ^ (-(ulp_exp x)).toNat : ℤ) : ℚ) * pow2 (ulp_exp x) :=
          mul_le_mul_of_nonneg_right hrq (le_of_lt hp)
      _ = (t : ℚ) := by
          rw [← int_div_pow2 t _ hk, div_mul_cancel₀ _ (ne_of_gt hp)]

theorem binary32_intCast (t : ℤ) (hk : ulp_exp (t : ℚ) ≤ 0) : binary32 (t : ℚ) = (t : ℚ) := by
  unfold binary32
  split
  · rename_i h0
    exact h0.symm
  · have hp := pow2_pos (ulp_exp (t : ℚ))
    rw [int_div_pow2 t _ hk, rne_intCast, ← int_div_pow2 t _ hk, div_mul_cancel₀ _ (ne_of_gt hp)]

theorem ulp_exp_le (x : ℚ) (hx : x ≠ 0) (h : |x| < pow2 24) : ulp_exp x ≤ 0 := by
  have := ilog2_lt x hx 24 h
  unfold ulp_exp
  omega

/-- Every natural number below `2 ^ 24` is a binary32 number. -/
theorem binary32_natCast (n : ℕ) (h : n < 2 ^ 24) : binary32 (n : ℚ) = (n : ℚ) := by
  by_cases h0 : (n : ℚ) = 0
  · rw [h0]; rfl
  · have hk : ulp_exp ((n : ℤ) : ℚ) ≤ 0 := by
      apply ulp_exp_le
      · exact_mod_cast h0
      · have : pow2 24 = ((2 ^ 24 : ℕ) : ℚ) := pow2_natCast 24
        rw [this, Int.cast_natCast, Nat.abs_cast]
        exact_mod_cast h
    have := binary32_intCast (n : ℤ) hk
    simpa using this

theorem binary32_le_natCast (x : ℚ) (t : ℕ) (h0 : 0 ≤ x) (hx : x ≤ (t : ℚ)) (ht : t < 2 ^ 24) :
    binary32 x ≤ (t : ℚ) := by
  by_cases hz : x = 0
  · rw [hz]
    have : binary32 0 = 0 := rfl
    rw [this]
    exact Nat.cast_nonneg t
  · have hk : ulp_exp x ≤ 0 := by
      apply ulp_exp_le x hz
      have : pow2 24 = ((2 ^ 24 : ℕ) : ℚ) := pow2_natCast 24
      rw [this, abs_of_nonneg h0]
      have : (t : ℚ) < ((2 ^ 24 : ℕ) : ℚ) := by exact_mod_cast ht
      linarith
    have := binary32_le_int x (t : ℤ) (by simpa using hx) hk
    simpa using this


theorem rne_abs_sub_le (y : ℚ) : |(rne y : ℚ) - y| ≤ 1 / 2 := by
  have h1 : (⌊y⌋ : ℚ) ≤ y := Int.floor_le y
  have h2 : y < (⌊y⌋ : ℚ) + 1 := Int.lt_floor_add_one y
  unfold rne
  rw [abs_le]
  split
  · constructor <;> linarith
  · split
    · push_cast; constructor <;> linarith
    · split
      · constructor <;> linarith
      · push_cast; constructor <;> linarith

/-- The rounding `binary32 x` is within half a unit in the last place of `x`. -/
theorem binary32_abs_sub_le (x : ℚ) : |binary32 x - x| ≤ pow2 (ulp_exp x) / 2 := by
  have hp := pow2_pos (ulp_exp x)
  unfold binary32
  split
  · rename_i h0
    rw [zero_sub, abs_neg, abs_of_nonneg (le_of_eq h0.symm), h0]
    exact le_of_lt (half_pos (pow2_pos _))
  · have h1 := rne_abs_sub_le (x / pow2 (ulp_exp x))
    have e : (rne (x / pow2 (ulp_exp x)) : ℚ) * pow2 (ulp_exp x) - x
        = ((rne (x / pow2 (ulp_exp x)) : ℚ) - x / pow2 (ulp_exp x)) * pow2 (ulp_exp x) := by
      rw [sub_mul, div_mul_cancel₀ _ (ne_of_gt hp)]
    rw [e, abs_mul, abs_of_pos hp]
    calc |(rne (x / pow2 (ulp_exp x)) : ℚ) - x / pow2 (ulp_exp x)| * pow2 (ulp_exp x)
        ≤ 1 / 2 * pow2 (ulp_exp x) := mul_le_mul_of_nonneg_right h1 (le_of_lt hp)
      _ = pow2 (ulp_exp x) / 2 := by ring

/-! ## The remap expression -/

theorem c_round_bounds (x : ℚ) (h0 : 0 ≤ x) (h1 : x ≤ 255) : 0 ≤ c_round x ∧ c_round x ≤ 255 := by
  unfold c_round
  rw [if_pos h0]
  constructor
  · apply Int.floor_nonneg.mpr
    linarith
  · have : ⌊x + 1 / 2⌋ < 256 := by
      apply Int.floor_lt.mpr
      push_cast
      linarith
    omega

theorem remap_den_eq (width height m : Nat) (hm : m ≤ width * height)
    (hN : width * height < UINT_RANGE) : remap_den width height m = width * height - m := by
  unfold remap_den
  have h1 : m % UINT_RANGE = m := Nat.mod_eq_of_lt (by omega)
  rw [h1]
  have h2 : width * height + UINT_RANGE - m = (width * height - m) + UINT_RANGE := by omega
  rw [h2, Nat.add_mod_right]
  exact Nat.mod_eq_of_lt (by omega)

/-- With fewer than `2 ^ 24` pixels every count is a binary32 number, and only the
division and the multiplication of the remap expression round. -/
theorem remap_expr_eq (T m width height : Nat) (hlo : m ≤ T) (hhi : T ≤ width * height)
    (hN : width * height < 2 ^ 24) :
    remap_expr T m width height
      = binary32 (binary32 (((T - m : ℕ) : ℚ) / ((width * height - m : ℕ) : ℚ)) * 255) := by
  have hU : width * height < UINT_RANGE := lt_trans hN (by decide)
  have hm : m ≤ width * height := le_trans hlo hhi
  unfold remap_expr
  rw [remap_den_eq width height m hm hU, binary32_natCast T (by omega),
    binary32_natCast m (by omega), binary32_natCast (width * height - m) (by omega),
    ← Nat.cast_sub hlo, binary32_natCast (T - m) (by omega),
    binary32_natCast (BINS - 1) (by decide)]
  simp [BINS]

theorem remap_expr_bounds (T m width height : Nat) (hlo : m ≤ T) (hhi : T ≤ width * height)
    (hne : width * height ≠ m) (hN : width * height < 2 ^ 24) :
    0 ≤ remap_expr T m width height ∧ remap_expr T m width height ≤ 255 := by
  have hm : m ≤ width * height := le_trans hlo hhi
  rw [remap_expr_eq T m width height hlo hhi hN]
  have hd : (0 : ℚ) < ((width * height - m : ℕ) : ℚ) := by
    have : 0 < width * height - m := by omega
    exact_mod_cast this
  have hn0 : (0 : ℚ) ≤ ((T - m : ℕ) : ℚ) := Nat.cast_nonneg _
  have hn1 : ((T - m : ℕ) : ℚ) ≤ ((width * height - m : ℕ) : ℚ) := by
    have : T - m ≤ width * height - m := by omega
    exact_mod_cast this
  have hq0 : 0 ≤ ((T - m : ℕ) : ℚ) / ((width * height - m : ℕ) : ℚ) := div_nonneg hn0 (le_of_lt hd)
  have hq1 : ((T - m : ℕ) : ℚ) / ((width * height - m : ℕ) : ℚ) ≤ ((1 : ℕ) : ℚ) := by
    rw [Nat.cast_one]
    exact (div_le_one hd).mpr hn1
  have hb0 := binary32_nonneg _ hq0
  have hb1 := binary32_le_natCast _ 1 hq0 hq1 (by decide)
  rw [Nat.cast_one] at hb1
  have hp0 : 0 ≤ binary32 (((T - m : ℕ) : ℚ) / ((width * height - m : ℕ) : ℚ)) * 255 :=
    mul_nonneg hb0 (by norm_num)
  have hp1 : binary32 (((T - m : ℕ) : ℚ) / ((width * height - m : ℕ) : ℚ)) * 255
      ≤ ((255 : ℕ) : ℚ) := by
    push_cast
    linarith
  refine ⟨binary32_nonneg _ hp0, ?_⟩
  have := binary32_le_natCast _ 255 hp0 hp1 (by decide)
  simpa using this

theorem remap_value_bounds (cdf : List Nat) (width height m v : Nat)
    (hlo : m ≤ cdf.getD v 0) (hhi : cdf.getD v 0 ≤ width * height)
    (hne : width * height ≠ m) (hN : width * height < 2 ^ 24) :
    0 ≤ remap_value cdf m width height v ∧ remap_value cdf m width height v ≤ 255 :=
  remap_expr_bounds (cdf.getD v 0) m width height hlo hhi hne hN

theorem remap_expr_eq_equalized (T m width height : Nat) (hlo : m ≤ T)
    (hhi : T ≤ width * height) (hN : width * height < 2 ^ 24) :
    c_round (remap_expr T m width height) = equalized_binary32 T m (width * height) := by
  have hU : width * height < UINT_RANGE := lt_trans hN (by decide)
  have hm : m ≤ width * height := le_trans hlo hhi
  unfold remap_expr equalized_binary32
  rw [remap_den_eq width height m hm hU, Nat.cast_sub hm,
    binary32_natCast (BINS - 1) (by decide)]
  simp [BINS]

theorem remap_byte_eq (undef_byte : Nat) (cdf : List Nat) (width height m v : Nat)
    (hlo : m ≤ cdf.getD v 0) (hhi : cdf.getD v 0 ≤ width * height)
    (hne : width * height ≠ m) (hN : width * height < 2 ^ 24) :
    ((remap_byte undef_byte cdf m width height v : ℕ) : ℤ)
      = equalized_binary32 (cdf.getD v 0) m (width * height) := by
  have hU : width * height < UINT_RANGE := lt_trans hN (by decide)
  have hm : m ≤ width * height := le_trans hlo hhi
  have hb := remap_value_bounds cdf width height m v hlo hhi hne hN
  have hr := c_round_bounds _ hb.1 hb.2
  have hden : remap_den width height m ≠ 0 := by
    rw [remap_den_eq width height m hm hU]; omega
  unfold remap_byte
  rw [if_neg hden, ← remap_expr_eq_equalized (cdf.getD v 0) m width height hlo hhi hN]
  unfold remap_value at hr ⊢
  omega


/-! ## The pipeline as a whole -/

theorem histogram_eq_tables (undef_byte : Nat) (image : List Nat) (width height cpp : Nat) :
    histogram_eq undef_byte image width height cpp
      = (cumulative_tables image width height cpp).bind fun H =>
          remap_loop undef_byte image width height cpp H
            (get_min_cdf H.R) (get_min_cdf H.G) (get_min_cdf H.B)
            (List.replicate (width * height * cpp) 0) := by
  unfold histogram_eq cumulative_tables
  cases hist_loop image width height cpp histogram_init with
  | none => simp only [Option.map_none', Option.none_bind]
  | some H0 => simp only [Option.map_some', Option.some_bind]

theorem px_row_col_lt (i j width height : Nat) (hi : i < height) (hj : j < width) :
    i * width + j < width * height := by
  have h1 : (i + 1) * width ≤ height * width := Nat.mul_le_mul_right width hi
  rw [Nat.succ_mul, Nat.mul_comm height width] at h1
  omega

theorem hist_loop_some (image : List Nat) (width height cpp : Nat) (H0 : histogram)
    (hlen : image.length = width * height * cpp) (hc : 3 ≤ cpp) :
    ∃ H, hist_loop image width height cpp H0 = some H := by
  rw [hist_loop_flat, Nat.mul_comm height width]
  obtain ⟨H, hH, _⟩ := foldlM_range_inv (fun H p => hist_pixel image H (p * cpp))
    (fun _ _ => True) (width * height) H0 trivial (by
      intro k H hk _
      have h0 : k * cpp + 0 < image.length := by rw [hlen]; exact px_offset_lt k _ cpp 0 hk (by omega)
      have h1 : k * cpp + 1 < image.length := by rw [hlen]; exact px_offset_lt k _ cpp 1 hk (by omega)
      have h2 : k * cpp + 2 < image.length := by rw [hlen]; exact px_offset_lt k _ cpp 2 hk (by omega)
      simp only [Nat.add_zero] at h0
      show ∃ s', hist_pixel image H (k * cpp) = some s' ∧ True
      simp only [hist_pixel, List.getElem?_eq_getElem h0, List.getElem?_eq_getElem h1,
        List.getElem?_eq_getElem h2]
      exact ⟨_, rfl, trivial⟩)
  exact ⟨H, hH⟩

theorem table_ok_of_inv (image : List Nat) (cpp c n : Nat) (t : List Nat)
    (ht : tbl_inv image cpp c n t) (hn : n < UINT_RANGE) : table_ok t (cdf_table t) n := by
  obtain ⟨hlen, hsum, _⟩ := ht
  obtain ⟨hl, hv⟩ := cdf_table_spec t hlen (by rw [hsum]; exact hn)
  have hmono : ∀ v, v < BINS → (cdf_table t).getD 0 0 ≤ (cdf_table t).getD v 0 := by
    intro v hv'
    rw [hv 0 (by decide), hv v hv']
    exact sum_take_mono t 1 (v + 1) (by omega)
  refine ⟨hl, get_min_cdf_of_le _ hmono, ?_⟩
  intro v hv'
  refine ⟨hv v hv', hmono v hv', ?_⟩
  rw [hv v hv', ← hsum]
  exact sum_take_le t (v + 1)

theorem wf_total_lt (image : List Nat) (width height cpp : Nat)
    (hwf : well_formed image width height cpp) (hc : 3 ≤ cpp) : width * height < UINT_RANGE := by
  have h1 : width * height ≤ width * height * cpp := Nat.le_mul_of_pos_right _ (by omega)
  have h2 : INT_MAX < UINT_RANGE := by decide
  have h3 := hwf.2.2
  omega

theorem cdf_loop_chan_eq (H : histogram) (c : Nat) :
    (cdf_loop H).chan c = cdf_table (H.chan c) := by
  rw [cdf_loop_chan]
  match c with
  | 0 => simp only [histogram.chan]
  | 1 => simp only [histogram.chan]
  | _ + 2 => simp only [histogram.chan]

theorem cumulative_tables_spec (image : List Nat) (width height cpp : Nat)
    (hwf : well_formed image width height cpp) (hc : 3 ≤ cpp) :
    ∃ H0 H, hist_loop image width height cpp histogram_init = some H0
      ∧ hist_inv image cpp (width * height) H0
      ∧ cumulative_tables image width height cpp = some H
      ∧ H = cdf_loop H0
      ∧ ∀ c, c < 3 → table_ok (H0.chan c) (H.chan c) (width * height) := by
  obtain ⟨H0, hH0, hinv⟩ := hist_loop_spec image width height cpp hwf hc
  have hN := wf_total_lt image width height cpp hwf hc
  refine ⟨H0, cdf_loop H0, hH0, hinv, by simp [cumulative_tables, hH0], rfl, ?_⟩
  intro c hc3
  rw [cdf_loop_chan_eq]
  exact table_ok_of_inv image cpp c _ _ (hinv c hc3) hN

theorem pixel_done_chan (undef_byte : Nat) (image : List Nat) (width height cpp : Nat)
    (H : histogram) (e : List Nat) (p : Nat)
    (hd : pixel_done undef_byte image width height cpp H
      (get_min_cdf H.R) (get_min_cdf H.G) (get_min_cdf H.B) e p) :
    ∀ c, c < 3 → ∃ v, image[p * cpp + c]? = some v
      ∧ e[p * cpp + c]? = some (remap_byte undef_byte (H.chan c) (get_min_cdf (H.chan c))
          width height v) := by
  obtain ⟨r, g, b, hr, hg, hb, oR, oG, oB, _, _⟩ := hd
  intro c hc3
  obtain rfl | rfl | rfl : c = 0 ∨ c = 1 ∨ c = 2 := by omega
  · exact ⟨r, hr, oR⟩
  · exact ⟨g, hg, oG⟩
  · exact ⟨b, hb, oB⟩

theorem histogram_eq_spec (undef_byte : Nat) (image : List Nat) (width height cpp : Nat)
    (hlen : image.length = width * height * cpp) (hc : cpp = 3 ∨ cpp = 4) :
    ∃ H out, cumulative_tables image width height cpp = some H
      ∧ histogram_eq undef_byte image width height cpp = some out
      ∧ out.length = image.length
      ∧ ∀ p, p < width * height → pixel_done undef_byte image width height cpp H
          (get_min_cdf H.R) (get_min_cdf H.G) (get_min_cdf H.B) out p := by
  obtain ⟨H0, hH0⟩ := hist_loop_some image width height cpp histogram_init hlen (by omega)
  have hT : cumulative_tables image width height cpp = some (cdf_loop H0) := by
    simp [cumulative_tables, hH0]
  obtain ⟨out, hout, hol, hdone⟩ := remap_loop_spec undef_byte image width height cpp
    (cdf_loop H0) (get_min_cdf (cdf_loop H0).R) (get_min_cdf (cdf_loop H0).G)
    (get_min_cdf (cdf_loop H0).B) (List.replicate (width * height * cpp) 0) hlen hc
    (by simp [hlen])
  refine ⟨cdf_loop H0, out, hT, ?_, hol, hdone⟩
  rw [histogram_eq_tables, hT]
  exact hout

/-- For a well-formed image, each byte the remap loop stores for a colour channel is the
code's `remap_byte` at the input byte, which lies below 256 and whose table entry lies
between the first table entry and the number of pixels. -/
theorem remap_facts (undef_byte : Nat) (image : List Nat) (width height cpp : Nat)
    (hwf : well_formed image width height cpp) (hc : cpp = 3 ∨ cpp = 4) :
    ∃ H0 H out, hist_loop image width height cpp histogram_init = some H0
      ∧ hist_inv image cpp (width * height) H0
      ∧ cumulative_tables image width height cpp = some H
      ∧ histogram_eq undef_byte image width height cpp = some out
      ∧ (∀ c, c < 3 → table_ok (H0.chan c) (H.chan c) (width * height))
      ∧ ∀ p c, p < width * height → c < 3 →
          ∃ v, image[p * cpp + c]? = some v ∧ v < BINS
            ∧ out[p * cpp + c]? = some (remap_byte undef_byte (H.chan c)
                (get_min_cdf (H.chan c)) width height v) := by
  obtain ⟨H0, H, hH0, hinv, hT, _, hok⟩ :=
    cumulative_tables_spec image width height cpp hwf (by omega)
  obtain ⟨H', out, hT', hout, _, hdone⟩ :=
    histogram_eq_spec undef_byte image width height cpp hwf.1 hc
  have hHH : H' = H := by
    rw [hT] at hT'
    exact (Option.some.inj hT').symm
  subst hHH
  refine ⟨H0, H', out, hH0, hinv, hT, hout, hok, ?_⟩
  intro p c hp hc3
  obtain ⟨v, hv, ho⟩ := pixel_done_chan undef_byte image width height cpp H' out p (hdone p hp) c hc3
  refine ⟨v, hv, ?_, ho⟩
  exact hwf.2.1 v (List.getElem?_mem hv)


/-! ## Evaluation on the concrete inputs -/

theorem getElem?_of_getD (l : List Nat) (i x : Nat) (hi : i < l.length) (hx : l.getD i 0 = x) :
    l[i]? = some x := by
  rw [List.getD_eq_getElem?_getD, List.getElem?_eq_getElem hi] at hx
  rw [List.getElem?_eq_getElem hi]
  exact congrArg some hx

theorem cdf_table_eq_prefix_sums (h : List Nat) (hlen : h.length = BINS)
    (hs : h.sum < UINT_RANGE) : cdf_table h = prefix_sums h := by
  obtain ⟨hl, hv⟩ := cdf_table_spec h hlen hs
  apply List.ext_getElem?
  intro n
  by_cases hn : n < BINS
  · rw [getElem?_of_getD _ n _ (by rw [hl]; exact hn) (hv n hn)]
    have hmod : (h.take (n + 1)).sum % UINT_RANGE = (h.take (n + 1)).sum :=
      Nat.mod_eq_of_lt (lt_of_le_of_lt (sum_take_le h (n + 1)) hs)
    simp [prefix_sums, List.getElem?_range hn, hmod]
  · rw [List.getElem?_eq_none (by rw [hl]; omega),
      List.getElem?_eq_none (by simp [prefix_sums]; omega)]

theorem running_sums_length :
    ∀ (l : List Nat) (acc : Nat), (running_sums acc l).length = l.length := by
  intro l
  induction l with
  | nil => intro acc; rfl
  | cons x xs ih => intro acc; simp [running_sums, ih]

theorem running_sums_getD : ∀ (l : List Nat) (acc i : Nat), i < l.length →
    (running_sums acc l).getD i 0 = acc + (l.take (i + 1)).sum := by
  intro l
  induction l with
  | nil => intro acc i hi; simp at hi
  | cons x xs ih =>
    intro acc i hi
    cases i with
    | zero => simp [running_sums]
    | succ i =>
      have hi' : i < xs.length := by simpa using hi
      have := ih (acc + x) i hi'
      simp only [List.getD_eq_getElem?_getD] at this
      simp [running_sums, this]
      omega

theorem cdf_table_eq_running_sums (h : List Nat) (hlen : h.length = BINS)
    (hs : h.sum < UINT_RANGE) : cdf_table h = running_sums 0 h := by
  obtain ⟨hl, hv⟩ := cdf_table_spec h hlen hs
  apply List.ext_getElem?
  intro n
  by_cases hn : n < BINS
  · rw [getElem?_of_getD _ n _ (by rw [hl]; exact hn) (hv n hn)]
    have := running_sums_getD h 0 n (by rw [hlen]; exact hn)
    rw [Nat.zero_add] at this
    rw [getElem?_of_getD _ n _ (by rw [running_sums_length, hlen]; exact hn) this]
  · rw [List.getElem?_eq_none (by rw [hl]; omega),
      List.getElem?_eq_none (by rw [running_sums_length, hlen]; omega)]

set_option maxRecDepth 100000 in
theorem scenario_hist_loop :
    hist_loop scenario_image 2 2 3 histogram_init
      = some ⟨scenario_hist, scenario_hist, scenario_hist⟩ := by
  decide!

set_option maxRecDepth 100000 in
theorem scenario_hist_ok : scenario_hist.length = BINS ∧ scenario_hist.sum < UINT_RANGE := by
  decide!

set_option maxRecDepth 100000 in
theorem scenario_running_sums : running_sums 0 scenario_hist = scenario_table := by
  decide!

theorem scenario_cdf_table : cdf_table scenario_hist = scenario_table := by
  rw [cdf_table_eq_running_sums scenario_hist scenario_hist_ok.1 scenario_hist_ok.2]
  exact scenario_running_sums

theorem scenario_prefix_sums : prefix_sums scenario_hist = scenario_table := by
  rw [← cdf_table_eq_prefix_sums scenario_hist scenario_hist_ok.1 scenario_hist_ok.2]
  exact scenario_cdf_table

theorem scenario_cumulative_tables :
    cumulative_tables scenario_image 2 2 3
      = some ⟨scenario_table, scenario_table, scenario_table⟩ := by
  simp only [cumulative_tables, scenario_hist_loop, Option.map_some', cdf_loop_chan,
    scenario_cdf_table]

set_option maxRecDepth 100000 in
theorem scenario_get_min_cdf : get_min_cdf scenario_table = 0 := by
  have h0 : scenario_table.getD 0 0 = 0 := by decide
  rw [get_min_cdf_of_le scenario_table (by intro i _; rw [h0]; exact Nat.zero_le _), h0]

set_option maxRecDepth 100000 in
theorem scenario_remap_loop :
    remap_loop 0 scenario_image 2 2 3 ⟨scenario_table, scenario_table, scenario_table⟩ 0 0 0
        (List.replicate (2 * 2 * 3) 0)
      = some [128, 128, 128, 128, 128, 128, 255, 255, 255, 255, 255, 255] := by
  decide!

theorem scenario_host_output :
    histogram_eq 0 scenario_image 2 2 3
      = some [128, 128, 128, 128, 128, 128, 255, 255, 255, 255, 255, 255] := by
  rw [histogram_eq_tables, scenario_cumulative_tables]
  simp only [Option.some_bind, scenario_get_min_cdf]
  exact scenario_remap_loop

set_option maxRecDepth 100000 in
theorem scenario_img_histogram :
    img_histogram scenario_image histogram_init (2 * 2) 3 (global_item_size (2 * 2))
      = some ⟨scenario_hist, scenario_hist, scenario_hist⟩ := by
  decide!

set_option maxRecDepth 100000 in
theorem scenario_min_positive : min_positive scenario_table = 2 := by
  decide!

theorem scenario_histogram_cdfs :
    histogram_cdfs ⟨scenario_hist, scenario_hist, scenario_hist⟩
      = (⟨scenario_table, scenario_table, scenario_table⟩, 2, 2, 2) := by
  unfold histogram_cdfs
  simp only [scenario_prefix_sums, scenario_min_positive]

set_option maxRecDepth 100000 in
theorem scenario_correct_img :
    correct_img 0 scenario_image (List.replicate (2 * 2 * 3) 0)
        ⟨scenario_table, scenario_table, scenario_table⟩ (2, 2, 2) (2 * 2) 3
        (global_item_size (2 * 2))
      = some [0, 0, 0, 0, 0, 0, 255, 255, 255, 255, 255, 255] := by
  decide!

theorem scenario_gpu_output :
    gpu_main 0 scenario_image 2 2 3 = some [0, 0, 0, 0, 0, 0, 255, 255, 255, 255, 255, 255] := by
  simp only [gpu_main]
  rw [scenario_img_histogram, Option.some_bind, scenario_histogram_cdfs]
  exact scenario_correct_img


/-! ## A channel whose bytes are all zero -/

theorem pixel_count_all (image : List Nat) (cpp c v n : Nat)
    (h : ∀ p, p < n → image[p * cpp + c]? = some v) : pixel_count image cpp c v n = n := by
  have key : (List.range n).countP (fun p => decide (image[p * cpp + c]? = some v))
      = (List.range n).length :=
    List.countP_eq_length.mpr (fun a ha => by
      simpa using h a (List.mem_range.mp ha))
  rw [List.length_range] at key
  exact key

theorem remap_den_self (width height : Nat) (hN : width * height < UINT_RANGE) :
    remap_den width height (width * height) = 0 := by
  rw [remap_den_eq width height _ (Nat.le_refl _) hN, Nat.sub_self]

theorem zero_channel_den (image : List Nat) (width height cpp : Nat)
    (hwf : well_formed image width height cpp) (hc : cpp = 3 ∨ cpp = 4)
    (c : Nat) (hc3 : c < 3) (hz : ∀ p, p < width * height → image[p * cpp + c]? = some 0) :
    ∃ H, cumulative_tables image width height cpp = some H
      ∧ get_min_cdf (H.chan c) = width * height
      ∧ remap_den width height (get_min_cdf (H.chan c)) = 0 := by
  obtain ⟨H0, H, _, hinv, hT, _, hok⟩ :=
    cumulative_tables_spec image width height cpp hwf (by omega)
  obtain ⟨_, _, hcnt⟩ := hinv c hc3
  obtain ⟨_, hmin, htab⟩ := hok c hc3
  have h1 : (H.chan c).getD 0 0 = ((H0.chan c).take (0 + 1)).sum := (htab 0 (by decide)).1
  have h2 : ((H0.chan c).take (0 + 1)).sum = (H0.chan c).getD 0 0 := by
    rw [sum_take_succ_getD]; simp
  have h3 : get_min_cdf (H.chan c) = width * height := by
    rw [hmin, h1, h2, hcnt 0, pixel_count_all image cpp c 0 _ hz]
  refine ⟨H, hT, h3, ?_⟩
  rw [h3]
  exact remap_den_self width height (wf_total_lt image width height cpp hwf (by omega))


/-! ## The cumulative tables in the specification's vocabulary -/

theorem spec_cdf_succ_aux (image : List Nat) (cpp c v : Nat) : ∀ n,
    (List.range n).countP (fun p =>
        match image[p * cpp + c]? with
        | some b => decide (b ≤ v + 1)
        | none => false)
      = (List.range n).countP (fun p =>
          match image[p * cpp + c]? with
          | some b => decide (b ≤ v)
          | none => false)
        + pixel_count image cpp c (v + 1) n := by
  intro n
  induction n with
  | zero => simp [pixel_count]
  | succ n ih =>
    rw [pixel_count_succ]
    simp only [List.range_succ, List.countP_append, List.countP_singleton, ih]
    cases h : image[n * cpp + c]? with
    | none => simp
    | some b =>
      by_cases h1 : b ≤ v
      · have h2 : b ≤ v + 1 := by omega
        have h3 : b ≠ v + 1 := by omega
        simp [h1, h2, h3]
        omega
      · by_cases h4 : b = v + 1
        · subst h4; simp
          omega
        · have h5 : ¬ b ≤ v + 1 := by omega
          simp [h1, h4, h5]

theorem spec_cdf_zero (image : List Nat) (width height cpp c : Nat) :
    spec_cdf image width height cpp c 0 = pixel_count image cpp c 0 (width * height) := by
  unfold spec_cdf pixel_count
  congr 1
  funext p
  cases h : image[p * cpp + c]? with
  | none => simp
  | some b => simp

theorem spec_cdf_succ (image : List Nat) (width height cpp c v : Nat) :
    spec_cdf image width height cpp c (v + 1)
      = spec_cdf image width height cpp c v
        + pixel_count image cpp c (v + 1) (width * height) :=
  spec_cdf_succ_aux image cpp c v (width * height)

/-- The prefix sums of the histogram of channel `c` are the specification's `cdf[c]`. -/
theorem sum_take_eq_spec_cdf (image : List Nat) (width height cpp c : Nat) (h : List Nat)
    (hcnt : ∀ v, h.getD v 0 = pixel_count image cpp c v (width * height)) :
    ∀ v, (h.take (v + 1)).sum = spec_cdf image width height cpp c v := by
  intro v
  induction v with
  | zero =>
    rw [sum_take_succ_getD, hcnt 0, spec_cdf_zero]
    simp
  | succ v ih =>
    rw [sum_take_succ_getD, ih, hcnt (v + 1), spec_cdf_succ]

/-- What `histogram_eq` computes, in the specification's vocabulary: for a well-formed
image with 3 or 4 channels the entry `v` of the cumulative table of channel `c` is
`cdf[c][v]`, `get_min_cdf` returns `cdf[c][0]`, which stands in the place of the
specification's `min_cdf[c]`, and each colour byte of the output is the byte of the remap
expression at these values. -/
theorem histogram_eq_first_bin (undef_byte : Nat) (image : List Nat) (width height cpp : Nat)
    (hwf : well_formed image width height cpp) (hc : cpp = 3 ∨ cpp = 4) :
    ∃ H out, cumulative_tables image width height cpp = some H
      ∧ histogram_eq undef_byte image width height cpp = some out
      ∧ ∀ p c, p < width * height → c < 3 →
          ∃ v, image[p * cpp + c]? = some v
            ∧ (H.chan c).getD v 0 = spec_cdf image width height cpp c v
            ∧ get_min_cdf (H.chan c) = spec_cdf image width height cpp c 0
            ∧ out[p * cpp + c]? = some (remap_byte undef_byte (H.chan c)
                (get_min_cdf (H.chan c)) width height v) := by
  obtain ⟨H0, H, out, _, hinv, hT, hout, hok, hbytes⟩ :=
    remap_facts undef_byte image width height cpp hwf hc
  refine ⟨H, out, hT, hout, ?_⟩
  intro p c hp hc3
  obtain ⟨v, hv, hv256, ho⟩ := hbytes p c hp hc3
  obtain ⟨_, hmin, htab⟩ := hok c hc3
  obtain ⟨_, _, hcnt⟩ := hinv c hc3
  have hspec := sum_take_eq_spec_cdf image width height cpp c (H0.chan c) hcnt
  have hTv : (H.chan c).getD v 0 = spec_cdf image width height cpp c v := by
    rw [(htab v hv256).1, hspec v]
  have hT0 : (H.chan c).getD 0 0 = spec_cdf image width height cpp c 0 := by
    rw [(htab 0 (by decide)).1, hspec 0]
  exact ⟨v, hv, hTv, by rw [hmin, hT0], ho⟩

/-! ## Images given by their pixel values -/

theorem rgb_pixels_length : ∀ (vs : List Nat), (rgb_pixels vs).length = vs.length * 3 := by
  intro vs
  induction vs with
  | nil => rfl
  | cons v vs ih => simp only [rgb_pixels, List.length_cons, ih]; omega

theorem rgb_pixels_getElem? : ∀ (vs : List Nat) (p c : Nat), c < 3 →
    (rgb_pixels vs)[p * 3 + c]? = vs[p]? := by
  intro vs
  induction vs with
  | nil => intro p c _; simp [rgb_pixels]
  | cons v vs ih =>
    intro p c hc
    cases p with
    | zero =>
      obtain rfl | rfl | rfl : c = 0 ∨ c = 1 ∨ c = 2 := by omega
      all_goals simp [rgb_pixels]
    | succ p =>
      have e : (p + 1) * 3 + c = (p * 3 + c) + 1 + 1 + 1 := by omega
      rw [e]
      simp only [rgb_pixels, List.getElem?_cons_succ]
      exact ih p c hc

theorem rgb_pixels_mem : ∀ (vs : List Nat) (b : Nat), b ∈ rgb_pixels vs → b ∈ vs := by
  intro vs
  induction vs with
  | nil => intro b hb; simp [rgb_pixels] at hb
  | cons v vs ih =>
    intro b hb
    simp only [rgb_pixels, List.mem_cons] at hb ⊢
    rcases hb with h | h | h | h
    · exact Or.inl h
    · exact Or.inl h
    · exact Or.inl h
    · exact Or.inr (ih b h)

theorem countP_range_getElem? (g : Option Nat → Bool) : ∀ (l : List Nat),
    (List.range l.length).countP (fun p => g l[p]?) = l.countP (fun x => g (some x)) := by
  intro l
  induction l with
  | nil => rfl
  | cons x xs ih =>
    rw [List.length_cons, List.range_succ_eq_map, List.countP_cons, List.countP_cons,
      List.countP_map, ← ih]
    simp only [List.getElem?_cons_zero]
    congr 1
    congr 1
    funext p
    simp only [Function.comp, Nat.succ_eq_add_one, List.getElem?_cons_succ]

/-- The specification's `cdf[c][i]` of an image given by its pixel values. -/
theorem spec_cdf_rgb_pixels (vs : List Nat) (width height c i : Nat) (hc : c < 3)
    (hlen : vs.length = width * height) :
    spec_cdf (rgb_pixels vs) width height 3 c i = vs.countP (fun v => decide (v ≤ i)) := by
  unfold spec_cdf
  rw [← hlen]
  have key := countP_range_getElem?
    (fun o => match o with
      | some v => decide (v ≤ i)
      | none => false) vs
  simp only [] at key
  rw [← key]
  congr 1
  funext p
  rw [rgb_pixels_getElem? vs p c hc]

theorem well_formed_rgb_pixels (vs : List Nat) (width height : Nat)
    (hlen : vs.length = width * height) (hb : ∀ v ∈ vs, v < 256)
    (hmax : width * height * 3 ≤ INT_MAX) : well_formed (rgb_pixels vs) width height 3 := by
  refine ⟨by rw [rgb_pixels_length, hlen], ?_, hmax⟩
  intro b hbm
  exact hb b (rgb_pixels_mem vs b hbm)

/-! ## The two large images -/

theorem remap_byte_of_value (undef_byte : Nat) (cdf : List Nat) (m width height v T : Nat)
    (hT : cdf.getD v 0 = T) :
    remap_byte undef_byte cdf m width height v
      = if remap_den width height m = 0 then undef_byte
        else (c_round (remap_expr T m width height) % 256).toNat := by
  subst hT
  rfl

theorem tie_image_well_formed : well_formed tie_image 33149 1 3 := by
  apply well_formed_rgb_pixels
  · rw [List.length_append, List.length_replicate, List.length_replicate]
  · intro v hv
    rw [List.mem_append] at hv
    rcases hv with h | h
    · have := List.eq_of_mem_replicate h
      omega
    · have := List.eq_of_mem_replicate h
      omega
  · decide

theorem tie_image_first_byte : tie_image[0 * 3 + 0]? = some 1 := by
  unfold tie_image
  rw [rgb_pixels_getElem? _ 0 0 (by decide),
    List.getElem?_append_left (by rw [List.length_replicate]; decide), List.getElem?_replicate]
  rfl

theorem tie_image_cdf (c : Nat) (hc : c < 3) :
    spec_cdf tie_image 33149 1 3 c 0 = 0 ∧ spec_cdf tie_image 33149 1 3 c 1 = 33084 := by
  have hlen : (List.replicate 33084 1 ++ List.replicate 65 2).length = 33149 * 1 := by
    rw [List.length_append, List.length_replicate, List.length_replicate]
  unfold tie_image
  constructor
  · rw [spec_cdf_rgb_pixels _ 33149 1 c 0 hc hlen, List.countP_append, List.countP_replicate,
      List.countP_replicate]
    rfl
  · rw [spec_cdf_rgb_pixels _ 33149 1 c 1 hc hlen, List.countP_append, List.countP_replicate,
      List.countP_replicate]
    rfl

theorem large_image_well_formed : well_formed large_image 4097 4099 3 := by
  apply well_formed_rgb_pixels
  · rw [List.length_append, List.length_replicate, List.length_singleton]
  · intro v hv
    rw [List.mem_append] at hv
    rcases hv with h | h
    · have := List.eq_of_mem_replicate h
      omega
    · have := List.eq_of_mem_singleton h
      omega
  · decide

theorem large_image_last_byte : large_image[16793602 * 3 + 0]? = some 1 := by
  unfold large_image
  rw [rgb_pixels_getElem? _ 16793602 0 (by decide),
    List.getElem?_append_right (by rw [List.length_replicate]), List.length_replicate]
  rfl

theorem large_image_cdf (c : Nat) (hc : c < 3) :
    spec_cdf large_image 4097 4099 3 c 0 = 16793602
      ∧ spec_cdf large_image 4097 4099 3 c 1 = 16793603 := by
  have hlen : (List.replicate 16793602 0 ++ [1]).length = 4097 * 4099 := by
    rw [List.length_append, List.length_replicate, List.length_singleton]
  unfold large_image
  constructor
  · rw [spec_cdf_rgb_pixels _ 4097 4099 c 0 hc hlen, List.countP_append, List.countP_replicate]
    rfl
  · rw [spec_cdf_rgb_pixels _ 4097 4099 c 1 hc hlen, List.countP_append, List.countP_replicate]
    rfl


/-! ## The claims -/

/-- C1 (evaluation of the code at the claim's witness image). On the 2x2 image with
R = G = B = [10, 10, 200, 200] the specification's formula, with min_cdf the smallest
strictly positive cdf value 2, gives 0 for the value 10 and 255 for the value 200, while
`histogram_eq` returns 128 for the value 10 and 255 for the value 200: the divisor is
never zero on this image and `get_min_cdf` returned 0. -/
theorem C1_end_to_end_scenario :
    well_formed scenario_image 2 2 3
      ∧ spec_min_cdf scenario_image 2 2 3 0 = 2
      ∧ spec_new_value scenario_image 2 2 3 0 10 = 0
      ∧ spec_new_value scenario_image 2 2 3 0 200 = 255
      ∧ histogram_eq 0 scenario_image 2 2 3
          = some [128, 128, 128, 128, 128, 128, 255, 255, 255, 255, 255, 255] := by
  refine ⟨by decide, by decide!, by decide!, by decide!, scenario_host_output⟩

/-- C2: for a well-formed image with 3 or 4 channels the accumulation loop of
`histogram_eq` finishes, and for each colour channel `c` (byte offset 0, 1, 2 within a
pixel) and every `v` in 0..255 the counter `H.c[v]` equals the number of pixels whose
channel-`c` byte equals `v`. -/
theorem C2_histogram_accumulation (image : List Nat) (width height cpp : Nat)
    (hwf : well_formed image width height cpp) (hc : cpp = 3 ∨ cpp = 4) :
    ∃ H, hist_loop image width height cpp histogram_init = some H
      ∧ ∀ c v, c < 3 → v < BINS →
          (H.chan c)[v]? = some (pixel_count image cpp c v (width * height)) := by
  obtain ⟨H, hH, hinv⟩ := hist_loop_spec image width height cpp hwf (by omega)
  refine ⟨H, hH, ?_⟩
  intro c v hc3 hv
  obtain ⟨hlen, _, hcnt⟩ := hinv c hc3
  exact getElem?_of_getD _ v _ (by rw [hlen]; exact hv) (hcnt v)

/-- C2 at the 2x2 image with R = G = B = [10, 10, 200, 200]. -/
theorem C2_histogram_accumulation_witness :
    well_formed scenario_image 2 2 3
      ∧ ∃ H, hist_loop scenario_image 2 2 3 histogram_init = some H
          ∧ ∀ c v, c < 3 → v < BINS →
              (H.chan c)[v]? = some (pixel_count scenario_image 3 c v (2 * 2)) :=
  ⟨by decide, C2_histogram_accumulation scenario_image 2 2 3 (by decide) (Or.inl rfl)⟩

/-- C3: for a 256-bin histogram table of a colour channel whose bins sum to less than
2^32, after the cumulative loop of `histogram_eq` the table holds the inclusive prefix
sum: entry `i` is `h[0] + h[1] + ... + h[i]`, for every `i` in 0..255. -/
theorem C3_cdf_prefix_sum (H : histogram) (c : Nat) (hlen : (H.chan c).length = BINS)
    (hsum : (H.chan c).sum < UINT_RANGE) :
    ∀ i, i < BINS → ((cdf_loop H).chan c)[i]? = some (((H.chan c).take (i + 1)).sum) := by
  intro i hi
  rw [cdf_loop_chan_eq]
  obtain ⟨hl, hv⟩ := cdf_table_spec (H.chan c) hlen hsum
  exact getElem?_of_getD _ i _ (by rw [hl]; exact hi) (hv i hi)

set_option maxRecDepth 100000 in
/-- C3 at the histogram of the 2x2 image with R = G = B = [10, 10, 200, 200]. -/
theorem C3_cdf_prefix_sum_witness :
    (scenario_hist.length = BINS ∧ scenario_hist.sum < UINT_RANGE)
      ∧ ∀ i, i < BINS →
          ((cdf_loop ⟨scenario_hist, scenario_hist, scenario_hist⟩).chan 0)[i]?
            = some ((scenario_hist.take (i + 1)).sum) :=
  ⟨scenario_hist_ok,
    C3_cdf_prefix_sum ⟨scenario_hist, scenario_hist, scenario_hist⟩ 0 scenario_hist_ok.1
      scenario_hist_ok.2⟩

set_option maxRecDepth 100000 in
/-- C4 (evaluation of the code at the claim's witness table). On the non-decreasing
table that is 0 for the bins below 10, 2 for the bins 10..199 and 4 from bin 200 on, the
minimum of the strictly positive entries is 2 and `get_min_cdf` returns 0, the entry of
bin 0. -/
theorem C4_get_min_cdf_scenario :
    scenario_table.length = BINS
      ∧ nondecreasing scenario_table = true
      ∧ min_positive scenario_table = 2
      ∧ get_min_cdf scenario_table = 0 := by
  refine ⟨by decide, by decide!, scenario_min_positive, scenario_get_min_cdf⟩

/-- C5 as amended: for a well-formed image with 3 or 4 channels and fewer than 2^24
pixels `histogram_eq` returns a buffer, and for every pixel `p` and colour channel `c`
with `width * height ≠ m_c` the byte at offset `p * cpp + c` of that buffer is
`round(x)`, where `x` is `(T_c[v] - m_c) / (N - m_c) * 255` evaluated in binary32 (the
counts converted to binary32, the subtraction, the division and the multiplication each
rounded to nearest, ties to even, and `round` rounding ties away from zero); `v` is the
input byte at the same offset, `T_c` the cumulative table of channel `c`,
`m_c = get_min_cdf T_c` and `N = width * height`. -/
theorem C5_remap_stage (undef_byte : Nat) (image : List Nat) (width height cpp : Nat)
    (hwf : well_formed image width height cpp) (hc : cpp = 3 ∨ cpp = 4)
    (hN : width * height < 2 ^ 24) :
    ∃ H out, cumulative_tables image width height cpp = some H
      ∧ histogram_eq undef_byte image width height cpp = some out
      ∧ ∀ p c, p < width * height → c < 3 → width * height ≠ get_min_cdf (H.chan c) →
          ∃ v byte, image[p * cpp + c]? = some v ∧ out[p * cpp + c]? = some byte
            ∧ (byte : ℤ) = equalized_binary32 ((H.chan c).getD v 0) (get_min_cdf (H.chan c))
                (width * height) := by
  obtain ⟨H0, H, out, _, _, hT, hout, hok, hbytes⟩ :=
    remap_facts undef_byte image width height cpp hwf hc
  refine ⟨H, out, hT, hout, ?_⟩
  intro p c hp hc3 hne
  obtain ⟨v, hv, hv256, ho⟩ := hbytes p c hp hc3
  obtain ⟨_, hmin, htab⟩ := hok c hc3
  obtain ⟨_, hlo, hhi⟩ := htab v hv256
  refine ⟨v, _, hv, ho, ?_⟩
  exact remap_byte_eq undef_byte (H.chan c) width height _ v (by rw [hmin]; exact hlo) hhi hne hN

/-- C5 as amended, at the 2x2 image with R = G = B = [10, 10, 200, 200]. -/
theorem C5_remap_stage_witness :
    (well_formed scenario_image 2 2 3 ∧ 2 * 2 < 2 ^ 24)
      ∧ ∃ H out, cumulative_tables scenario_image 2 2 3 = some H
          ∧ histogram_eq 0 scenario_image 2 2 3 = some out
          ∧ ∀ p c, p < 2 * 2 → c < 3 → 2 * 2 ≠ get_min_cdf (H.chan c) →
              ∃ v byte, scenario_image[p * 3 + c]? = some v ∧ out[p * 3 + c]? = some byte
                ∧ (byte : ℤ) = equalized_binary32 ((H.chan c).getD v 0)
                    (get_min_cdf (H.chan c)) (2 * 2) :=
  ⟨⟨by decide, by decide⟩,
    C5_remap_stage 0 scenario_image 2 2 3 (by decide) (Or.inl rfl) (by decide)⟩

set_option maxRecDepth 100000 in
/-- C5 as stated fails on the well-formed 33149x1 three-channel image with 33084 pixels
of value 1 followed by 65 pixels of value 2: for the red byte of the first pixel the
table entry is 33084, `get_min_cdf` returns 0 and there are 33149 pixels, the exactly
computed `round((33084 - 0) / (33149 - 0) * 255)` is 254, and `histogram_eq` stores 255,
the binary32 product being 254.5. -/
theorem C5_tie_image_counterexample :
    well_formed tie_image 33149 1 3
      ∧ ∃ H out, cumulative_tables tie_image 33149 1 3 = some H
          ∧ histogram_eq 0 tie_image 33149 1 3 = some out
          ∧ tie_image[0 * 3 + 0]? = some 1
          ∧ (H.chan 0).getD 1 0 = 33084
          ∧ get_min_cdf (H.chan 0) = 0
          ∧ equalized ((H.chan 0).getD 1 0) (get_min_cdf (H.chan 0)) (33149 * 1) = 254
          ∧ remap_value (H.chan 0) (get_min_cdf (H.chan 0)) 33149 1 1 = 509 / 2
          ∧ out[0 * 3 + 0]? = some 255 := by
  refine ⟨tie_image_well_formed, ?_⟩
  obtain ⟨H, out, hT, hout, hall⟩ :=
    histogram_eq_first_bin 0 tie_image 33149 1 3 tie_image_well_formed (Or.inl rfl)
  obtain ⟨v, hv, hTv, hm, ho⟩ := hall 0 0 (by decide) (by decide)
  have hv1 : v = 1 := by
    rw [tie_image_first_byte] at hv
    exact (Option.some.inj hv).symm
  subst hv1
  rw [(tie_image_cdf 0 (by decide)).2] at hTv
  rw [(tie_image_cdf 0 (by decide)).1] at hm
  refine ⟨H, out, hT, hout, tie_image_first_byte, hTv, hm, ?_, ?_, ?_⟩
  · rw [hTv, hm]
    decide!
  · unfold remap_value
    rw [hTv, hm]
    decide!
  · rw [ho, remap_byte_of_value 0 (H.chan 0) _ 33149 1 1 33084 hTv, hm]
    decide!

/-- C6: for every 4-channel image of `width * height * 4` bytes `histogram_eq` returns a
buffer of the same size whose byte at offset `p * 4 + 3` equals the input byte at that
offset, for every pixel `p`. -/
theorem C6_alpha_pass_through (undef_byte : Nat) (image : List Nat) (width height : Nat)
    (hlen : image.length = width * height * 4) :
    ∃ out, histogram_eq undef_byte image width height 4 = some out
      ∧ out.length = image.length
      ∧ ∀ p, p < width * height →
          ∃ a, image[p * 4 + 3]? = some a ∧ out[p * 4 + 3]? = some a := by
  obtain ⟨_, out, _, hout, hol, hdone⟩ :=
    histogram_eq_spec undef_byte image width height 4 hlen (Or.inr rfl)
  refine ⟨out, hout, hol, ?_⟩
  intro p hp
  obtain ⟨_, _, _, _, _, _, _, _, _, hA, hAl⟩ := hdone p hp
  refine ⟨image[p * 4 + 3], List.getElem?_eq_getElem (hAl rfl), ?_⟩
  rw [hA rfl]
  exact List.getElem?_eq_getElem (hAl rfl)

/-- C6 at the 1x2 four-channel image with alpha bytes 77 and 99. -/
theorem C6_alpha_pass_through_witness :
    [1, 2, 3, 77, 4, 5, 6, 99].length = 1 * 2 * 4
      ∧ ∃ out, histogram_eq 0 [1, 2, 3, 77, 4, 5, 6, 99] 1 2 4 = some out
          ∧ out.length = [1, 2, 3, 77, 4, 5, 6, 99].length
          ∧ ∀ p, p < 1 * 2 →
              ∃ a, [1, 2, 3, 77, 4, 5, 6, 99][p * 4 + 3]? = some a ∧ out[p * 4 + 3]? = some a :=
  ⟨by decide, C6_alpha_pass_through 0 [1, 2, 3, 77, 4, 5, 6, 99] 1 2 (by decide)⟩

/-- C7 (evaluation of both paths at the 2x2 image with R = G = B = [10, 10, 200, 200]).
The host implementation `histogram_eq` returns 128 for the bytes of value 10, the
accelerator pipeline with the kernels as the specification describes them returns 0 for
them, so the two buffers differ. -/
theorem C7_paths_differ_scenario :
    well_formed scenario_image 2 2 3
      ∧ histogram_eq 0 scenario_image 2 2 3
        = some [128, 128, 128, 128, 128, 128, 255, 255, 255, 255, 255, 255]
      ∧ gpu_main 0 scenario_image 2 2 3 = some [0, 0, 0, 0, 0, 0, 255, 255, 255, 255, 255, 255]
      ∧ histogram_eq 0 scenario_image 2 2 3 ≠ gpu_main 0 scenario_image 2 2 3 := by
  refine ⟨by decide, scenario_host_output, scenario_gpu_output, ?_⟩
  rw [scenario_host_output, scenario_gpu_output]
  decide

/-- C8 as amended: for every well-formed image with 3 or 4 channels, every offset the
accumulation loop of `histogram_eq` reads (`px_idx`, `px_idx + 1`, `px_idx + 2` with
`px_idx = (i * width + j) * cpp`) is below the buffer length, and the loop finishes
without a read outside the buffer. -/
theorem C8_reads_in_bounds (image : List Nat) (width height cpp : Nat)
    (hwf : well_formed image width height cpp) (hc : cpp = 3 ∨ cpp = 4) :
    (∀ i j k, i < height → j < width → k < 3 → (i * width + j) * cpp + k < image.length)
      ∧ ∃ H, hist_loop image width height cpp histogram_init = some H := by
  refine ⟨?_, hist_loop_some image width height cpp histogram_init hwf.1 (by omega)⟩
  intro i j k hi hj hk
  rw [hwf.1]
  exact px_offset_lt _ _ cpp k (px_row_col_lt i j width height hi hj) (by omega)

/-- C8 as amended, at the 2x2 image with R = G = B = [10, 10, 200, 200]. -/
theorem C8_reads_in_bounds_witness :
    (well_formed scenario_image 2 2 3 ∧ (3 = 3 ∨ 3 = 4))
      ∧ (∀ i j k, i < 2 → j < 2 → k < 3 → (i * 2 + j) * 3 + k < scenario_image.length)
      ∧ ∃ H, hist_loop scenario_image 2 2 3 histogram_init = some H :=
  ⟨⟨by decide, Or.inl rfl⟩, C8_reads_in_bounds scenario_image 2 2 3 (by decide) (Or.inl rfl)⟩

/-- C8 as stated fails on the well-formed 1x1 image with one channel, where the loop
reads the offsets 0, 1 and 2 of a buffer of one byte, and on the well-formed 1x1 image
with two channels, where it reads the offset 2 of a buffer of two bytes: the model of the
loop stops at the read outside the buffer. -/
theorem C8_single_channel_counterexample :
    (well_formed grey_pixel 1 1 1
        ∧ ¬ ((0 * 1 + 0) * 1 + 1 < grey_pixel.length)
        ∧ hist_loop grey_pixel 1 1 1 histogram_init = none)
      ∧ (well_formed grey_alpha_pixel 1 1 2
        ∧ ¬ ((0 * 1 + 0) * 2 + 2 < grey_alpha_pixel.length)
        ∧ hist_loop grey_alpha_pixel 1 1 2 histogram_init = none) := by
  decide

/-- C9 as amended: in a well-formed image with 3 or 4 channels, for a colour channel
whose byte is 0 in every pixel, `get_min_cdf` returns `width * height` for the channel's
cumulative table and the remap divisor `width * height - min_cdf` is zero. -/
theorem C9_zero_channel_divisor (image : List Nat) (width height cpp : Nat)
    (hwf : well_formed image width height cpp) (hc : cpp = 3 ∨ cpp = 4)
    (c : Nat) (hc3 : c < 3) (hz : ∀ p, p < width * height → image[p * cpp + c]? = some 0) :
    ∃ H, cumulative_tables image width height cpp = some H
      ∧ get_min_cdf (H.chan c) = width * height
      ∧ remap_den width height (get_min_cdf (H.chan c)) = 0 :=
  zero_channel_den image width height cpp hwf hc c hc3 hz

/-- C9 as amended, at the green channel of the 1x1 black image. -/
theorem C9_zero_channel_divisor_witness :
    (well_formed black_pixel 1 1 3 ∧ (3 = 3 ∨ 3 = 4) ∧ 1 < 3
        ∧ ∀ p, p < 1 * 1 → black_pixel[p * 3 + 1]? = some 0)
      ∧ ∃ H, cumulative_tables black_pixel 1 1 3 = some H
          ∧ get_min_cdf (H.chan 1) = 1 * 1
          ∧ remap_den 1 1 (get_min_cdf (H.chan 1)) = 0 :=
  ⟨⟨by decide, Or.inl rfl, by decide, by decide⟩,
    C9_zero_channel_divisor black_pixel 1 1 3 (by decide) (Or.inl rfl) 1 (by decide) (by decide)⟩

/-- C9 as stated fails on the 1x1 black image with three channels, a uniform-colour
image: the remap divisor of the red channel is zero. -/
theorem C9_black_pixel_counterexample :
    well_formed black_pixel 1 1 3
      ∧ uniform_colour black_pixel 1 1 3
      ∧ ∃ H, cumulative_tables black_pixel 1 1 3 = some H
          ∧ remap_den 1 1 (get_min_cdf H.R) = 0 := by
  refine ⟨by decide, ⟨0, 0, 0, by decide⟩, ?_⟩
  obtain ⟨H, hT, _, hden⟩ :=
    zero_channel_den black_pixel 1 1 3 (by decide) (Or.inl rfl) 0 (by decide) (by decide)
  exact ⟨H, hT, hden⟩

/-- C10 as amended: for a well-formed image with 3 or 4 channels and fewer than 2^24
pixels, every pixel `p` and every colour channel `c` with `width * height ≠ m_c`, the
binary32 value `((T_c[v] - m_c) / (width * height - m_c)) * 255` that `histogram_eq`
hands to `round` lies in the interval [0, 255], and so does the rounded value; `v` is the
input byte, `T_c` the cumulative table of the code and `m_c = get_min_cdf T_c`. -/
theorem C10_remap_bounded (image : List Nat) (width height cpp : Nat)
    (hwf : well_formed image width height cpp) (hc : cpp = 3 ∨ cpp = 4)
    (hN : width * height < 2 ^ 24) :
    ∃ H, cumulative_tables image width height cpp = some H
      ∧ ∀ p c, p < width * height → c < 3 → width * height ≠ get_min_cdf (H.chan c) →
          ∃ v, image[p * cpp + c]? = some v
            ∧ 0 ≤ remap_value (H.chan c) (get_min_cdf (H.chan c)) width height v
            ∧ remap_value (H.chan c) (get_min_cdf (H.chan c)) width height v ≤ 255
            ∧ 0 ≤ c_round (remap_value (H.chan c) (get_min_cdf (H.chan c)) width height v)
            ∧ c_round (remap_value (H.chan c) (get_min_cdf (H.chan c)) width height v)
                ≤ 255 := by
  obtain ⟨H0, H, out, _, _, hT, _, hok, hbytes⟩ :=
    remap_facts 0 image width height cpp hwf hc
  refine ⟨H, hT, ?_⟩
  intro p c hp hc3 hne
  obtain ⟨v, hv, hv256, _⟩ := hbytes p c hp hc3
  obtain ⟨_, hmin, htab⟩ := hok c hc3
  obtain ⟨_, hlo, hhi⟩ := htab v hv256
  have hb := remap_value_bounds (H.chan c) width height (get_min_cdf (H.chan c)) v
    (by rw [hmin]; exact hlo) hhi hne hN
  have hr := c_round_bounds _ hb.1 hb.2
  exact ⟨v, hv, hb.1, hb.2, hr.1, hr.2⟩

/-- C10 as amended, at the 2x2 image with R = G = B = [10, 10, 200, 200]. -/
theorem C10_remap_bounded_witness :
    (well_formed scenario_image 2 2 3 ∧ 2 * 2 < 2 ^ 24)
      ∧ ∃ H, cumulative_tables scenario_image 2 2 3 = some H
          ∧ ∀ p c, p < 2 * 2 → c < 3 → 2 * 2 ≠ get_min_cdf (H.chan c) →
              ∃ v, scenario_image[p * 3 + c]? = some v
                ∧ 0 ≤ remap_value (H.chan c) (get_min_cdf (H.chan c)) 2 2 v
                ∧ remap_value (H.chan c) (get_min_cdf (H.chan c)) 2 2 v ≤ 255
                ∧ 0 ≤ c_round (remap_value (H.chan c) (get_min_cdf (H.chan c)) 2 2 v)
                ∧ c_round (remap_value (H.chan c) (get_min_cdf (H.chan c)) 2 2 v) ≤ 255 :=
  ⟨⟨by decide, by decide⟩,
    C10_remap_bounded scenario_image 2 2 3 (by decide) (Or.inl rfl) (by decide)⟩

set_option maxRecDepth 100000 in
/-- C10 as stated fails on the well-formed 4097x4099 three-channel image that is black
except for its last pixel, of value 1: for the red byte of the last pixel the table entry
is 16793603, the number of pixels, and `get_min_cdf` returns 16793602; in binary32 the
entry becomes 16793604, the difference 2 and the divisor 1, so the value handed to
`round` is 510, and so is the rounded value. -/
theorem C10_large_image_counterexample :
    well_formed large_image 4097 4099 3
      ∧ ∃ H, cumulative_tables large_image 4097 4099 3 = some H
          ∧ large_image[16793602 * 3 + 0]? = some 1
          ∧ (H.chan 0).getD 1 0 = 16793603
          ∧ get_min_cdf (H.chan 0) = 16793602
          ∧ 4097 * 4099 ≠ get_min_cdf (H.chan 0)
          ∧ remap_value (H.chan 0) (get_min_cdf (H.chan 0)) 4097 4099 1 = 510
          ∧ c_round (remap_value (H.chan 0) (get_min_cdf (H.chan 0)) 4097 4099 1) = 510 := by
  refine ⟨large_image_well_formed, ?_⟩
  obtain ⟨H, out, hT, _, hall⟩ :=
    histogram_eq_first_bin 0 large_image 4097 4099 3 large_image_well_formed (Or.inl rfl)
  obtain ⟨v, hv, hTv, hm, _⟩ := hall 16793602 0 (by decide) (by decide)
  have hv1 : v = 1 := by
    rw [large_image_last_byte] at hv
    exact (Option.some.inj hv).symm
  subst hv1
  rw [(large_image_cdf 0 (by decide)).2] at hTv
  rw [(large_image_cdf 0 (by decide)).1] at hm
  refine ⟨H, hT, large_image_last_byte, hTv, hm, ?_, ?_, ?_⟩
  · rw [hm]
    decide
  · unfold remap_value
    rw [hTv, hm]
    decide!
  · unfold remap_value
    rw [hTv, hm]
    decide!

end HistEq
